import Mathlib

/-!
Verification of the mkrel release-management tool: a shallow embedding of the
versioning engine (CalVer and SemVer), the git executor's dry-run behaviour,
and the release/hotfix flow controller, together with theorems settling the
specification claims.

Strings are processed over `List Char` with structural recursion throughout so
that every definition evaluates on concrete inputs.
-/

deriving instance DecidableEq for Except

/- ### Basic Go-style string utilities -/

/-- Decimal digit printing of one `Nat`, fuel-based so it reduces definitionally.
Mirrors Go's `%d` formatting for non-negative integers. -/
def natDigsCore : Nat → Nat → List Char → List Char
  | 0, _, acc => acc
  | fuel + 1, n, acc =>
      let d := Char.ofNat (48 + n % 10)
      if n < 10 then d :: acc else natDigsCore fuel (n / 10) (d :: acc)

/-- Decimal rendering of a `Nat` (Go `%d`). -/
def natToStr (n : Nat) : String := ⟨natDigsCore (n + 1) n []⟩

/-- Value of a most-significant-first decimal digit list (Go `strconv.Atoi` on an
all-digit string, idealised to unbounded naturals). -/
def digitsToNat : List Char → Nat
  | [] => 0
  | c :: cs => (c.toNat - 48) * 10 ^ cs.length + digitsToNat cs

/-- Go `fmt` `%02d`: zero-pad to two digits. -/
def pad02 (n : Nat) : String := if n < 10 then "0" ++ natToStr n else natToStr n

/-- Go `strings.TrimPrefix pre s`: drop `pre` when `s` starts with it. -/
def dropLeading (pre s : String) : String :=
  if pre.data.isPrefixOf s.data then ⟨s.data.drop pre.data.length⟩ else s

/-- Go `strings.Join l " "`. -/
def joinSpace : List String → String
  | [] => ""
  | [s] => s
  | s :: rest => s ++ " " ++ joinSpace rest

/-- Go `fmt` `%v` of a `[]string` value. -/
def goFmtStrings (l : List String) : String := "[" ++ joinSpace l ++ "]"

/- ### Versioning schemes and bump intents (internal/version/version.go) -/

/-- The two versioning schemes. -/
inductive Scheme where
  | calver
  | semver
deriving DecidableEq

/-- `BumpType` is a string type in the source; these are its three constants. -/
def bumpMinor : String := "minor"

def bumpPatch : String := "patch"

def bumpHotfix : String := "hotfix"

/- ### CalVer versioner (internal/version/calver.go) -/

/-- The injectable clock: the `year`/`month`/`day` the CalVer versioner reads
from its `now` function. -/
structure GoDate where
  year : Nat
  month : Nat
  day : Nat
deriving DecidableEq

/-- Today's date formatted `fmt.Sprintf("%d.%02d.%02d", y, m, d)`. -/
def calverToday (d : GoDate) : String :=
  natToStr d.year ++ "." ++ pad02 d.month ++ "." ++ pad02 d.day

/-- The four capture groups of `calverPattern`
(`^(\d{4})\.(\d{2})\.(\d{2})(?:-(\d+))?$`). -/
structure CalParts where
  y : String
  m : String
  d : String
  suffix : Option String
deriving DecidableEq

/-- `calverPattern.FindStringSubmatch`: match `YYYY.MM.DD` with an optional
`-N` suffix of one or more digits. -/
def calverParse (s : String) : Option CalParts :=
  match s.data with
  | y1 :: y2 :: y3 :: y4 :: '.' :: m1 :: m2 :: '.' :: d1 :: d2 :: rest =>
    if y1.isDigit && y2.isDigit && y3.isDigit && y4.isDigit &&
        m1.isDigit && m2.isDigit && d1.isDigit && d2.isDigit then
      match rest with
      | [] => some ⟨⟨[y1, y2, y3, y4]⟩, ⟨[m1, m2]⟩, ⟨[d1, d2]⟩, none⟩
      | '-' :: ds =>
        if !ds.isEmpty && ds.all Char.isDigit then
          some ⟨⟨[y1, y2, y3, y4]⟩, ⟨[m1, m2]⟩, ⟨[d1, d2]⟩, some ⟨ds⟩⟩
        else none
      | _ => none
    else none
  | _ => none

/-- `CalVer.IsValid`. -/
def calverIsValid (s : String) : Bool := (calverParse s).isSome

/-- Go `%d` rendering of a signed integer value. -/
def intToStr (i : Int) : String :=
  if i < 0 then "-" ++ natToStr i.natAbs else natToStr i.toNat

/-- Two's-complement wrap of an `int64` computation whose mathematical value
may exceed `MaxInt64`. -/
def wrap64 (i : Int) : Int := if 2 ^ 63 ≤ i then i - 2 ^ 64 else i

/-- Numeric value of the optional hotfix suffix (0 when absent), as Go's
`strconv.Atoi` yields it: on range overflow the error is discarded, leaving
the value clamped at `MaxInt64`. -/
def CalParts.suffixNum (p : CalParts) : Int :=
  match p.suffix with
  | none => 0
  | some n => ((min (digitsToNat n.data) (2 ^ 63 - 1) : Nat) : Int)

/-- `CalVer.nextHotfix`: same-day hotfixes increment the suffix with `int64`
arithmetic (wrapping when the clamped suffix is `MaxInt64`), anything else
starts at `today-1`. -/
def nextHotfix (current today : String) : String :=
  match calverParse current with
  | none => today ++ "-1"
  | some p =>
    let currentDate := p.y ++ "." ++ p.m ++ "." ++ p.d
    if currentDate = today then today ++ "-" ++ intToStr (wrap64 (p.suffixNum + 1))
    else today ++ "-1"

/-- `CalVer.Next` with the injected clock reading `d`. -/
def calverNext (d : GoDate) (current bump : String) : Except String String :=
  let today := calverToday d
  if bump = bumpMinor then .ok today
  else if bump = bumpPatch ∨ bump = bumpHotfix then .ok (nextHotfix current today)
  else .error ("unsupported bump type for CalVer: " ++ bump)

/- ### SemVer versioner (internal/version/semver.go, over Masterminds/semver v3) -/

/-- Characters allowed inside prerelease and build-metadata identifiers by the
semver library: ASCII letters, digits and hyphen. -/
def isSemChar (c : Char) : Bool := c.isDigit || c.isAlpha || c = '-'

/-- Checker for the regex fragment `IDENT(\.IDENT)*` with `IDENT = [0-9A-Za-z-]+`.
The flag records whether the current identifier already has a character. -/
def segsOk (b : Bool) : List Char → Bool
  | [] => b
  | c :: rest => if c = '.' then b && segsOk false rest else isSemChar c && segsOk true rest

/-- A whole prerelease or metadata body: nonempty dot-separated identifiers. -/
def segsOkStart (l : List Char) : Bool := segsOk false l

/-- Split a leading run of decimal digits (greedy `[0-9]+`). -/
def takeDigits : List Char → List Char × List Char
  | [] => ([], [])
  | c :: cs =>
    if c.isDigit then
      let (d, r) := takeDigits cs
      (c :: d, r)
    else ([], c :: cs)

/-- Parsed form of a Masterminds `semver.Version`: numeric components and the
prerelease/metadata strings (empty when absent). -/
structure SemVersion where
  major : Nat
  minor : Nat
  patch : Nat
  pre : String
  metadata : String
deriving DecidableEq

/-- Parse the numeric head `([0-9]+)(\.[0-9]+)?(\.[0-9]+)?` of the version
regex, returning the components and the unconsumed remainder. Each component
goes through `strconv.ParseUint(_, 10, 64)`, which rejects values of `2^64` or
more. -/
def parseVersionCore (cs : List Char) : Option (Nat × Nat × Nat × List Char) :=
  if (takeDigits cs).1.isEmpty then none
  else if 2 ^ 64 ≤ digitsToNat (takeDigits cs).1 then none
  else
    match (takeDigits cs).2 with
    | '.' :: r2 =>
      if (takeDigits r2).1.isEmpty then some (digitsToNat (takeDigits cs).1, 0, 0, (takeDigits cs).2)
      else if 2 ^ 64 ≤ digitsToNat (takeDigits r2).1 then none
      else
        match (takeDigits r2).2 with
        | '.' :: r4 =>
          if (takeDigits r4).1.isEmpty then
            some (digitsToNat (takeDigits cs).1, digitsToNat (takeDigits r2).1, 0, (takeDigits r2).2)
          else if 2 ^ 64 ≤ digitsToNat (takeDigits r4).1 then none
          else
            some (digitsToNat (takeDigits cs).1, digitsToNat (takeDigits r2).1,
              digitsToNat (takeDigits r4).1, (takeDigits r4).2)
        | _ =>
          some (digitsToNat (takeDigits cs).1, digitsToNat (takeDigits r2).1, 0, (takeDigits r2).2)
    | _ => some (digitsToNat (takeDigits cs).1, 0, 0, (takeDigits cs).2)

/-- Parse the optional `(-(PRE))?(\+(META))?` tail of the version regex.
Prerelease identifiers cannot contain `+`, so the prerelease body extends to
the first `+` when one is present. -/
def parsePreMeta : List Char → Option (String × String)
  | [] => some ("", "")
  | '-' :: r =>
    if segsOkStart (r.takeWhile (fun c => !(c = '+'))) then
      match r.dropWhile (fun c => !(c = '+')) with
      | [] => some (⟨r.takeWhile (fun c => !(c = '+'))⟩, "")
      | '+' :: m =>
        if segsOkStart m then some (⟨r.takeWhile (fun c => !(c = '+'))⟩, ⟨m⟩) else none
      | _ => none
    else none
  | '+' :: m => if segsOkStart m then some ("", ⟨m⟩) else none
  | _ => none

/-- Drop the optional leading `v` (`v?` in the regex). -/
def stripV : List Char → List Char
  | 'v' :: r => r
  | r => r

/-- `semver.NewVersion`: the lenient parser. Accepts an optional leading `v`,
one to three numeric components, and optional prerelease/build metadata. -/
def newVersion (s : String) : Option SemVersion :=
  match parseVersionCore (stripV s.data) with
  | none => none
  | some (ma, mi, pa, rest) =>
    match parsePreMeta rest with
    | none => none
    | some (p, m) => some ⟨ma, mi, pa, p, m⟩

/-- `semver.Version.String()`: canonical serialization (the `v` prefix of the
original input is not reproduced). -/
def SemVersion.render (v : SemVersion) : String :=
  natToStr v.major ++ "." ++ natToStr v.minor ++ "." ++ natToStr v.patch ++
    (if v.pre = "" then "" else "-" ++ v.pre) ++
    (if v.metadata = "" then "" else "+" ++ v.metadata)

/-- `semver.Version.IncMinor`: increments minor (a `uint64`, wrapping at
`2^64 - 1`), resets patch, drops prerelease and metadata. -/
def SemVersion.incMinor (v : SemVersion) : SemVersion :=
  { v with metadata := "", pre := "", patch := 0, minor := (v.minor + 1) % 2 ^ 64 }

/-- `semver.Version.IncPatch`: when a prerelease is present it is dropped and
the patch number is kept; otherwise patch (a `uint64`, wrapping at `2^64 - 1`)
is incremented. Metadata is dropped either way. -/
def SemVersion.incPatch (v : SemVersion) : SemVersion :=
  if v.pre = "" then { v with metadata := "", pre := "", patch := (v.patch + 1) % 2 ^ 64 }
  else { v with metadata := "", pre := "" }

/-- Split on `'.'` (Go `strings.Split(p, ".")`), accumulator-reversed. -/
def splitDotsAux : List Char → List Char → List (List Char)
  | [], cur => [cur.reverse]
  | '.' :: rest, cur => cur.reverse :: splitDotsAux rest []
  | c :: rest, cur => splitDotsAux rest (c :: cur)

/-- Split a character list on `'.'`. -/
def splitDots (l : List Char) : List (List Char) := splitDotsAux l []

/-- A numeric identifier with a redundant leading zero (`len > 1 && p[0] == '0'`). -/
def segLeadZeroBad : List Char → Bool
  | '0' :: _ :: _ => true
  | _ => false

/-- `semver.validatePrerelease`: each dot-separated identifier is either numeric
without a redundant leading zero, or made of the allowed characters. -/
def validatePrerelease (p : String) : Bool :=
  (splitDots p.data).all fun part =>
    if part.all Char.isDigit then !segLeadZeroBad part else part.all isSemChar

/-- `semver.Version.SetPrerelease`: validates a nonempty label, then replaces
the prerelease component. -/
def SemVersion.setPre (v : SemVersion) (p : String) : Option SemVersion :=
  if p ≠ "" ∧ ¬validatePrerelease p then none
  else some { v with pre := p }

/-- `SemVer.IsValid`. -/
def semverIsValid (s : String) : Bool := (newVersion s).isSome

/-- `SemVer.Next`. Error messages are modelled up to `fmt` formatting details. -/
def semverNext (current bump : String) : Except String String :=
  if current = "" ∧ (bump = bumpMinor ∨ bump = bumpPatch ∨ bump = bumpHotfix) then
    .ok (if bump = bumpMinor then "0.1.0" else "0.0.1")
  else
    match newVersion current with
    | none => .error ("invalid current version " ++ current)
    | some v =>
      if bump = bumpMinor then .ok v.incMinor.render
      else if bump = bumpPatch ∨ bump = bumpHotfix then .ok v.incPatch.render
      else .error ("unsupported bump type: " ++ bump)

/-- `SemVer.SetPrerelease`: canonical path through the library, with naive
concatenation as the fallback for unparseable versions or rejected labels. -/
def semverSetPrerelease (version p : String) : String :=
  match newVersion version with
  | none => version ++ "-" ++ p
  | some v =>
    match v.setPre p with
    | none => version ++ "-" ++ p
    | some v2 => v2.render

/-- Truncate at the first `'-'` (Go `strings.Index` fallback). -/
def cutAtDash (s : String) : String :=
  match s.data.findIdx? (fun c => c = '-') with
  | none => s
  | some i => ⟨s.data.take i⟩

/-- `SemVer.RemovePrerelease`: re-serialize without the prerelease, falling
back to truncation at the first `'-'` when the version does not parse. -/
def semverRemovePrerelease (version : String) : String :=
  match newVersion version with
  | none => cutAtDash version
  | some v => ({ v with pre := "" } : SemVersion).render

/- ### Git executor and repository wrapper (internal/git) -/

/-- The external world: what the real `git` process would return for a given
argument list (stdout on success, a failure message bundling the process error
and stderr otherwise). -/
structure World where
  git : List String → Except String String

/-- `git.Executor`: working directory plus the dry-run and verbose flags. -/
structure Executor where
  workDir : String
  dryRun : Bool
  verbose : Bool

/-- Observable outcome of one executor call: the returned value, the git
invocations actually performed, and the lines printed to the console. -/
structure ExecResult where
  res : Except String String
  invoked : List (List String)
  printed : List String
deriving DecidableEq

/-- Go `strings.TrimSpace`. -/
def goTrimSpace (s : String) : String :=
  ⟨((s.data.dropWhile Char.isWhitespace).reverse.dropWhile Char.isWhitespace).reverse⟩

/-- `Executor.Run`: prints the command when verbose or dry-run, performs
nothing in dry-run, otherwise executes and trims stdout. -/
def Executor.run (e : Executor) (w : World) (args : List String) : ExecResult :=
  let pr := if e.verbose || e.dryRun then ["$ git " ++ joinSpace args] else []
  if e.dryRun then ⟨.ok "", [], pr⟩
  else
    match w.git args with
    | .error msg => ⟨.error ("git " ++ joinSpace args ++ " failed: " ++ msg), [args], pr⟩
    | .ok out => ⟨.ok (goTrimSpace out), [args], pr⟩

/-- `Executor.RunSilent`: never prints, performs nothing in dry-run. -/
def Executor.runSilent (e : Executor) (w : World) (args : List String) : ExecResult :=
  if e.dryRun then ⟨.ok "", [], []⟩
  else
    match w.git args with
    | .error msg => ⟨.error ("git " ++ joinSpace args ++ " failed: " ++ msg), [args], []⟩
    | .ok out => ⟨.ok (goTrimSpace out), [args], []⟩

/-- `Executor.RunWithInput`: same dry-run behaviour as `Run`. -/
def Executor.runWithInput (e : Executor) (w : World) (input : String) (args : List String) :
    ExecResult :=
  let _ := input
  let pr := if e.verbose || e.dryRun then ["$ git " ++ joinSpace args] else []
  if e.dryRun then ⟨.ok "", [], pr⟩
  else
    match w.git args with
    | .error msg => ⟨.error ("git " ++ joinSpace args ++ " failed: " ++ msg), [args], pr⟩
    | .ok out => ⟨.ok (goTrimSpace out), [args], pr⟩

/-- Split a character list on newlines (Go `strings.Split(output, "\n")`). -/
def splitNlAux : List Char → List Char → List (List Char)
  | [], cur => [cur.reverse]
  | '\n' :: rest, cur => cur.reverse :: splitNlAux rest []
  | c :: rest, cur => splitNlAux rest (c :: cur)

/-- Split a string into lines. -/
def splitNl (s : String) : List String := (splitNlAux s.data []).map (⟨·⟩)

/-- `Repository.BranchExists`: true exactly when the silent `show-ref` call
reports no error. -/
def Repository.branchExists (e : Executor) (w : World) (name : String) : Bool :=
  match (e.runSilent w ["show-ref", "--verify", "--quiet", "refs/heads/" ++ name]).res with
  | .ok _ => true
  | .error _ => false

/-- `Repository.ListBranches`: list branches matching a name pattern, dropping
the current-branch marker. -/
def Repository.listBranches (e : Executor) (w : World) (pfx : String) :
    Except String (List String) :=
  match (e.runSilent w ["branch", "--list", pfx ++ "*"]).res with
  | .error msg => .error msg
  | .ok out =>
    if out = "" then .ok []
    else .ok (((splitNl out).map (fun l => dropLeading "* " (goTrimSpace l))).filter (· ≠ ""))

/- ### Flow controller (internal/flow) -/

/-- One call issued by the flow controller against the `Repository` capability. -/
inductive RepoCall where
  | listBranches (pfx : String)
  | checkout (branch : String)
  | createBranch (name base : String)
  | deleteBranch (name : String)
  | merge (branch : String) (noFF : Bool)
  | hasUncommittedChanges
  | createTag (name message : String)
  | pushWithTags (remote : String) (refs : List String)
  | formatTag (version : String)
  | getMainBranch
  | getDevelopBranch
  | latestTag
deriving DecidableEq

/-- The answers the repository gives during one run. Quantifying theorems over
this structure covers every combination of collaborator outcomes. -/
structure RepoEnv where
  listBranches : String → Except String (List String)
  checkout : String → Except String Unit
  createBranch : String → String → Except String Unit
  deleteBranch : String → Except String Unit
  merge : String → Bool → Except String Unit
  hasUncommittedChanges : Except String Bool
  createTag : String → String → Except String Unit
  pushWithTags : String → List String → Except String Unit
  formatTag : String → Except String String
  getMainBranch : Except String String
  getDevelopBranch : Except String String
  latestTag : Except String String

/-- Configuration of a `Flow` as resolved by `flow.New`: the scheme, the
injected clock for CalVer, the remote, and the main/develop branch names held
in the `Flow` struct fields. -/
structure FlowCfg where
  scheme : Scheme
  today : GoDate
  remote : String
  mainBranch : String
  devBranch : String

/-- `Versioner.Next` as dispatched by the scheme chosen in `version.New`. -/
def vNext (cfg : FlowCfg) (current bump : String) : Except String String :=
  match cfg.scheme with
  | .calver => calverNext cfg.today current bump
  | .semver => semverNext current bump

/-- `Versioner.SetPrerelease`: a no-op for CalVer. -/
def vSetPrerelease (cfg : FlowCfg) (version p : String) : String :=
  match cfg.scheme with
  | .calver => version
  | .semver => semverSetPrerelease version p

/-- `Versioner.RemovePrerelease`: a no-op for CalVer. -/
def vRemovePrerelease (cfg : FlowCfg) (version : String) : String :=
  match cfg.scheme with
  | .calver => version
  | .semver => semverRemovePrerelease version

/-- `Versioner.Current`: the latest tag with a leading `v` stripped (both
variants behave identically). -/
def vCurrent (env : RepoEnv) : Except String String :=
  match env.latestTag with
  | .error e => .error e
  | .ok tag => .ok (dropLeading "v" tag)

/-- `Flow.ReleaseStart`: result plus the sequence of repository calls issued. -/
def releaseStart (cfg : FlowCfg) (env : RepoEnv) : Except String Unit × List RepoCall :=
  let t0 := [RepoCall.listBranches "release/"]
  match env.listBranches "release/" with
  | .error e => (.error ("failed to list release branches: " ++ e), t0)
  | .ok (r :: _) => (.error ("release already in progress: " ++ r), t0)
  | .ok [] =>
    let t1 := t0 ++ [RepoCall.checkout cfg.devBranch]
    match env.checkout cfg.devBranch with
    | .error e => (.error ("failed to checkout " ++ cfg.devBranch ++ ": " ++ e), t1)
    | .ok _ =>
      let t2 := t1 ++ [RepoCall.hasUncommittedChanges]
      match env.hasUncommittedChanges with
      | .error e => (.error e, t2)
      | .ok true => (.error "uncommitted changes in working directory", t2)
      | .ok false =>
        let t3 := t2 ++ [RepoCall.latestTag]
        match vCurrent env with
        | .error e => (.error ("failed to get current version: " ++ e), t3)
        | .ok current =>
          match vNext cfg current bumpMinor with
          | .error e => (.error ("failed to calculate next version: " ++ e), t3)
          | .ok nv =>
            let nextVersion := if cfg.scheme = Scheme.semver then vSetPrerelease cfg nv "rc.0" else nv
            let branchName := "release/" ++ nextVersion
            let t4 := t3 ++ [RepoCall.createBranch branchName cfg.devBranch]
            match env.createBranch branchName cfg.devBranch with
            | .error e => (.error ("failed to create release branch: " ++ e), t4)
            | .ok _ => (.ok (), t4)

/-- `Flow.ReleaseFinish`: merge to main, tag, merge to develop, push, delete
the release branch, and optionally chain into `ReleaseStart`. -/
def releaseFinish (cfg : FlowCfg) (env : RepoEnv) (startNew : Bool) :
    Except String Unit × List RepoCall :=
  let t0 := [RepoCall.listBranches "release/"]
  match env.listBranches "release/" with
  | .error e => (.error ("failed to list release branches: " ++ e), t0)
  | .ok [] => (.error "no release in progress", t0)
  | .ok [releaseBranch] =>
    let releaseVersion := dropLeading "release/" releaseBranch
    let finalVersion := vRemovePrerelease cfg releaseVersion
    let t1 := t0 ++ [RepoCall.checkout releaseBranch]
    match env.checkout releaseBranch with
    | .error e => (.error ("failed to checkout release branch: " ++ e), t1)
    | .ok _ =>
      let t2 := t1 ++ [RepoCall.hasUncommittedChanges]
      match env.hasUncommittedChanges with
      | .error e => (.error e, t2)
      | .ok true => (.error "uncommitted changes in release branch", t2)
      | .ok false =>
        let t3 := t2 ++ [RepoCall.checkout cfg.mainBranch]
        match env.checkout cfg.mainBranch with
        | .error e => (.error e, t3)
        | .ok _ =>
          let t4 := t3 ++ [RepoCall.merge releaseBranch true]
          match env.merge releaseBranch true with
          | .error e => (.error ("failed to merge to " ++ cfg.mainBranch ++ ": " ++ e), t4)
          | .ok _ =>
            let t5 := t4 ++ [RepoCall.formatTag finalVersion]
            match env.formatTag finalVersion with
            | .error e => (.error e, t5)
            | .ok tagName =>
              let t6 := t5 ++ [RepoCall.createTag tagName ("Release " ++ finalVersion)]
              match env.createTag tagName ("Release " ++ finalVersion) with
              | .error e => (.error ("failed to create tag: " ++ e), t6)
              | .ok _ =>
                let t7 := t6 ++ [RepoCall.checkout cfg.devBranch]
                match env.checkout cfg.devBranch with
                | .error e => (.error e, t7)
                | .ok _ =>
                  let t8 := t7 ++ [RepoCall.merge cfg.mainBranch true]
                  match env.merge cfg.mainBranch true with
                  | .error e => (.error ("failed to merge to " ++ cfg.devBranch ++ ": " ++ e), t8)
                  | .ok _ =>
                    let t9 := t8 ++
                      [RepoCall.pushWithTags cfg.remote [cfg.mainBranch, cfg.devBranch]]
                    match env.pushWithTags cfg.remote [cfg.mainBranch, cfg.devBranch] with
                    | .error e => (.error ("failed to push: " ++ e), t9)
                    | .ok _ =>
                      let t10 := t9 ++ [RepoCall.deleteBranch releaseBranch]
                      if startNew then
                        ((releaseStart cfg env).1, t10 ++ (releaseStart cfg env).2)
                      else (.ok (), t10)
  | .ok releases => (.error ("multiple releases in progress: " ++ goFmtStrings releases), t0)

/-- `Flow.HotfixStart`: like `ReleaseStart` but sourced from the main branch,
which it obtains from `GetMainBranch` auto-detection (not from the configured
`mainBranch` field). -/
def hotfixStart (cfg : FlowCfg) (env : RepoEnv) : Except String Unit × List RepoCall :=
  let t0 := [RepoCall.listBranches "hotfix/"]
  match env.listBranches "hotfix/" with
  | .error e => (.error ("failed to list hotfix branches: " ++ e), t0)
  | .ok (h :: _) => (.error ("hotfix already in progress: " ++ h), t0)
  | .ok [] =>
    let t1 := t0 ++ [RepoCall.getMainBranch]
    match env.getMainBranch with
    | .error e => (.error e, t1)
    | .ok mainBranch =>
      let t2 := t1 ++ [RepoCall.checkout mainBranch]
      match env.checkout mainBranch with
      | .error e => (.error ("failed to checkout " ++ mainBranch ++ ": " ++ e), t2)
      | .ok _ =>
        let t3 := t2 ++ [RepoCall.hasUncommittedChanges]
        match env.hasUncommittedChanges with
        | .error e => (.error e, t3)
        | .ok true => (.error "uncommitted changes in working directory", t3)
        | .ok false =>
          let t4 := t3 ++ [RepoCall.latestTag]
          match vCurrent env with
          | .error e => (.error ("failed to get current version: " ++ e), t4)
          | .ok current =>
            match vNext cfg current bumpHotfix with
            | .error e => (.error ("failed to calculate next version: " ++ e), t4)
            | .ok nextVersion =>
              let branchName := "hotfix/" ++ nextVersion
              let t5 := t4 ++ [RepoCall.createBranch branchName mainBranch]
              match env.createBranch branchName mainBranch with
              | .error e => (.error ("failed to create hotfix branch: " ++ e), t5)
              | .ok _ => (.ok (), t5)

/-- `Flow.HotfixFinish`: like `ReleaseFinish` without prerelease stripping and
without a chained restart; main and develop come from auto-detection. -/
def hotfixFinish (cfg : FlowCfg) (env : RepoEnv) : Except String Unit × List RepoCall :=
  let t0 := [RepoCall.listBranches "hotfix/"]
  match env.listBranches "hotfix/" with
  | .error e => (.error ("failed to list hotfix branches: " ++ e), t0)
  | .ok [] => (.error "no hotfix in progress", t0)
  | .ok [hotfixBranch] =>
    let hotfixVersion := dropLeading "hotfix/" hotfixBranch
    let t1 := t0 ++ [RepoCall.getMainBranch]
    match env.getMainBranch with
    | .error e => (.error e, t1)
    | .ok mainBranch =>
      let t2 := t1 ++ [RepoCall.getDevelopBranch]
      match env.getDevelopBranch with
      | .error e => (.error e, t2)
      | .ok developBranch =>
        let t3 := t2 ++ [RepoCall.checkout hotfixBranch]
        match env.checkout hotfixBranch with
        | .error e => (.error ("failed to checkout hotfix branch: " ++ e), t3)
        | .ok _ =>
          let t4 := t3 ++ [RepoCall.hasUncommittedChanges]
          match env.hasUncommittedChanges with
          | .error e => (.error e, t4)
          | .ok true => (.error "uncommitted changes in hotfix branch", t4)
          | .ok false =>
            let t5 := t4 ++ [RepoCall.checkout mainBranch]
            match env.checkout mainBranch with
            | .error e => (.error e, t5)
            | .ok _ =>
              let t6 := t5 ++ [RepoCall.merge hotfixBranch true]
              match env.merge hotfixBranch true with
              | .error e => (.error ("failed to merge to " ++ mainBranch ++ ": " ++ e), t6)
              | .ok _ =>
                let t7 := t6 ++ [RepoCall.formatTag hotfixVersion]
                match env.formatTag hotfixVersion with
                | .error e => (.error e, t7)
                | .ok tagName =>
                  let t8 := t7 ++ [RepoCall.createTag tagName ("Hotfix " ++ hotfixVersion)]
                  match env.createTag tagName ("Hotfix " ++ hotfixVersion) with
                  | .error e => (.error ("failed to create tag: " ++ e), t8)
                  | .ok _ =>
                    let t9 := t8 ++ [RepoCall.checkout developBranch]
                    match env.checkout developBranch with
                    | .error e => (.error e, t9)
                    | .ok _ =>
                      let t10 := t9 ++ [RepoCall.merge mainBranch true]
                      match env.merge mainBranch true with
                      | .error e =>
                        (.error ("failed to merge to " ++ developBranch ++ ": " ++ e), t10)
                      | .ok _ =>
                        let t11 := t10 ++
                          [RepoCall.pushWithTags cfg.remote [mainBranch, developBranch]]
                        match env.pushWithTags cfg.remote [mainBranch, developBranch] with
                        | .error e => (.error ("failed to push: " ++ e), t11)
                        | .ok _ =>
                          (.ok (), t11 ++ [RepoCall.deleteBranch hotfixBranch])
  | .ok hotfixes => (.error ("multiple hotfixes in progress: " ++ goFmtStrings hotfixes), t0)

/- ### Specification-side predicates -/

/-- The mutating repository calls: checkout, branch creation/deletion, merge,
tag creation and push. -/
def isMutationCall : RepoCall → Bool
  | .checkout _ => true
  | .createBranch _ _ => true
  | .deleteBranch _ => true
  | .merge _ _ => true
  | .createTag _ _ => true
  | .pushWithTags _ _ => true
  | _ => false

/-- Calls irrelevant to the finish-flow ordering invariant: everything except
merge, tag creation, push and branch deletion. -/
def isOrderNeutral : RepoCall → Bool
  | .merge _ _ => false
  | .createTag _ _ => false
  | .pushWithTags _ _ => false
  | .deleteBranch _ => false
  | _ => true

/-- Ordering automaton over a call trace, carrying the number of merges, tag
creations, pushes and branch deletions seen so far. It enforces, positionally:
a tag is created after exactly one merge (the main merge) and before the second
(develop) merge; a second merge only happens after the tag; a push happens after
both merges and the tag; a branch deletion happens only after the push; and no
merge, tag or push follows a deletion. -/
def orderedFrom : Nat → Nat → Nat → Nat → List RepoCall → Prop
  | _, _, _, _, [] => True
  | m, tg, p, d, c :: rest =>
    match c with
    | .merge _ _ => d = 0 ∧ p = 0 ∧ (m = 1 → tg = 1) ∧ orderedFrom (m + 1) tg p d rest
    | .createTag _ _ => m = 1 ∧ p = 0 ∧ d = 0 ∧ orderedFrom m (tg + 1) p d rest
    | .pushWithTags _ _ => m = 2 ∧ tg = 1 ∧ d = 0 ∧ orderedFrom m tg (p + 1) d rest
    | .deleteBranch _ => p = 1 ∧ orderedFrom m tg p (d + 1) rest
    | _ => orderedFrom m tg p d rest

/-- A trace satisfies the finish-flow ordering invariant. -/
def orderingOK (t : List RepoCall) : Prop := orderedFrom 0 0 0 0 t

/-- Branch-creation calls. -/
def isCreateBranchCall : RepoCall → Bool
  | .createBranch _ _ => true
  | _ => false

/-- `suf` is a suffix of `s`. -/
def endsWithS (suf s : String) : Bool :=
  if s.data.drop (s.data.length - suf.data.length) = suf.data then true else false

/-- Join character lists with `'.'` separators (spec-side inverse of
dot-splitting). -/
def dotJoin : List (List Char) → List Char
  | [] => []
  | [g] => g
  | g :: gs => g ++ '.' :: dotJoin gs

/-- Modelled from the spec, §3: the CalVer grammar `YYYY.MM.DD` or
`YYYY.MM.DD-N` — four digits, dot, two digits, dot, two digits, and an
optional dash followed by a nonempty digit string (the code places no
positivity or leading-zero restriction on `N`). -/
def calverGrammar (s : String) : Prop :=
  ∃ (y m d : List Char) (suf : Option (List Char)),
    y.length = 4 ∧ m.length = 2 ∧ d.length = 2 ∧
    (∀ c ∈ y, c.isDigit) ∧ (∀ c ∈ m, c.isDigit) ∧ (∀ c ∈ d, c.isDigit) ∧
    (∀ n, suf = some n → n ≠ [] ∧ ∀ c ∈ n, c.isDigit) ∧
    s.data = y ++ '.' :: m ++ '.' :: d ++
      (match suf with
        | none => []
        | some n => '-' :: n)

/-- Modelled from the spec, §3: a prerelease or build-metadata body — one or
more dot-separated nonempty identifiers of letters, digits and hyphens. -/
def segsGrammar (l : List Char) : Prop :=
  ∃ segs : List (List Char),
    segs ≠ [] ∧ (∀ g ∈ segs, g ≠ [] ∧ ∀ c ∈ g, isSemChar c) ∧ l = dotJoin segs

/-- Modelled from the spec, §3: one to three dot-separated decimal components,
each below `2^64` (the underlying parser's `ParseUint` bound). -/
def numsGrammar (nums : List (List Char)) : Prop :=
  1 ≤ nums.length ∧ nums.length ≤ 3 ∧
    ∀ g ∈ nums, g ≠ [] ∧ (∀ c ∈ g, c.isDigit) ∧ digitsToNat g < 2 ^ 64

/-- Modelled from the spec, §3: the optional `-PRERELEASE` and `+BUILD` tail. -/
def tailGrammar (tail : List Char) : Prop :=
  tail = [] ∨ (∃ p, segsGrammar p ∧ tail = '-' :: p) ∨
    (∃ m, segsGrammar m ∧ tail = '+' :: m) ∨
    (∃ p m, segsGrammar p ∧ segsGrammar m ∧ tail = '-' :: (p ++ '+' :: m))

/-- Modelled from the spec, §3: the lenient SemVer grammar accepted by the
underlying parser — optional `v` prefix, one to three numeric components with
shorthand coercion, optional prerelease and build metadata. -/
def semverGrammar (s : String) : Prop :=
  ∃ (vp : List Char) (nums : List (List Char)) (tail : List Char),
    (vp = [] ∨ vp = ['v']) ∧ numsGrammar nums ∧ tailGrammar tail ∧
    s.data = vp ++ dotJoin nums ++ tail

/-- A prerelease label conforming to the strict semver prerelease grammar:
nonempty dot-separated identifiers of letters, digits and hyphens, with no
redundant leading zero on numeric identifiers. -/
def preLabelOK (p : String) : Bool := segsOkStart p.data && validatePrerelease p

/- ### Concrete demonstration fixtures -/

/-- A world in which every git invocation fails. -/
def demoWorldFail : World := ⟨fun _ => .error "fatal: not a git repository"⟩

/-- A dry-run executor. -/
def demoDry : Executor := ⟨".", true, false⟩

/-- A live (non-dry-run) executor. -/
def demoWet : Executor := ⟨".", false, false⟩

/-- CalVer flow configuration with the clock fixed at 2025-12-26. -/
def demoCfgCal : FlowCfg := ⟨Scheme.calver, ⟨2025, 12, 26⟩, "origin", "main", "develop"⟩

/-- SemVer flow configuration. -/
def demoCfgSem : FlowCfg := ⟨Scheme.semver, ⟨2025, 12, 26⟩, "origin", "main", "develop"⟩

/-- CalVer configuration with explicitly configured branch names that differ
from the auto-detection candidates. -/
def demoCfgHot : FlowCfg :=
  ⟨Scheme.calver, ⟨2025, 12, 26⟩, "origin", "production", "development"⟩

/-- A fully cooperative repository: no branches listed, clean tree, every
mutation succeeds, detection finds `main` and `develop`, no tags yet. -/
def envAllOk : RepoEnv where
  listBranches := fun _ => .ok []
  checkout := fun _ => .ok ()
  createBranch := fun _ _ => .ok ()
  deleteBranch := fun _ => .ok ()
  merge := fun _ _ => .ok ()
  hasUncommittedChanges := .ok false
  createTag := fun _ _ => .ok ()
  pushWithTags := fun _ _ => .ok ()
  formatTag := fun v => .ok ("v" ++ v)
  getMainBranch := .ok "main"
  getDevelopBranch := .ok "develop"
  latestTag := .ok ""

/-- Like `envAllOk` but with a dirty working tree. -/
def envDirty : RepoEnv := { envAllOk with hasUncommittedChanges := .ok true }

/-- Like `envAllOk` but with one hotfix branch in progress. -/
def envOneHotfix : RepoEnv :=
  { envAllOk with
    listBranches := fun p => if p = "hotfix/" then .ok ["hotfix/2025.12.25-1"] else .ok [] }

/-- Like `envAllOk` but with one release branch in progress. -/
def envOneRelease : RepoEnv :=
  { envAllOk with
    listBranches := fun p => if p = "release/" then .ok ["release/0.1.0-rc.0"] else .ok [] }

/-- Like `envAllOk` but with two release branches in progress. -/
def envTwoReleases : RepoEnv :=
  { envAllOk with
    listBranches := fun p =>
      if p = "release/" then .ok ["release/1.0.0", "release/2.0.0"] else .ok [] }
/- ### Helper lemmas on decimal digit strings -/

theorem digitChar_isDigit (k : Nat) (h : k < 10) : (Char.ofNat (48 + k)).isDigit = true := by
  interval_cases k <;> decide

theorem digitChar_toNat (k : Nat) (h : k < 10) : (Char.ofNat (48 + k)).toNat = 48 + k := by
  interval_cases k <;> decide

theorem natDigsCore_acc (fuel : Nat) : ∀ (n : Nat) (acc : List Char),
    natDigsCore fuel n acc = natDigsCore fuel n [] ++ acc := by
  induction fuel with
  | zero => intro n acc; simp [natDigsCore]
  | succ f ih =>
    intro n acc
    by_cases h : n < 10
    · simp [natDigsCore, h]
    · simp only [natDigsCore, if_neg h]
      rw [ih (n / 10) (Char.ofNat (48 + n % 10) :: acc), ih (n / 10) [Char.ofNat (48 + n % 10)]]
      simp

theorem natDigsCore_fuel (n : Nat) : ∀ f1 f2 : Nat, n < f1 → n < f2 →
    natDigsCore f1 n [] = natDigsCore f2 n [] := by
  induction n using Nat.strong_induction_on with
  | _ n ih =>
    intro f1 f2 h1 h2
    match f1, f2 with
    | g1 + 1, g2 + 1 =>
      by_cases h : n < 10
      · simp [natDigsCore, h]
      · simp only [natDigsCore, if_neg h]
        rw [natDigsCore_acc g1, natDigsCore_acc g2]
        have hd : n / 10 < n := Nat.div_lt_self (by omega) (by omega)
        rw [ih (n / 10) hd g1 g2 (by omega) (by omega)]

/-- The digit list of `natToStr`. -/
theorem natToStr_data (n : Nat) : (natToStr n).data = natDigsCore (n + 1) n [] := rfl

theorem natToStr_spec (n : Nat) : (natToStr n).data =
    if n < 10 then [Char.ofNat (48 + n % 10)]
    else (natToStr (n / 10)).data ++ [Char.ofNat (48 + n % 10)] := by
  by_cases h : n < 10
  · rw [natToStr_data, if_pos h]
    simp [natDigsCore, h]
  · have h1 : (natToStr n).data = natDigsCore n (n / 10) [Char.ofNat (48 + n % 10)] := by
      rw [natToStr_data]
      simp [natDigsCore, h]
    rw [h1, if_neg h, natDigsCore_acc n, natToStr_data]
    have hd : n / 10 < n := Nat.div_lt_self (by omega) (by omega)
    rw [natDigsCore_fuel (n / 10) (n / 10 + 1) n (by omega) (by omega)]

theorem natToStr_digits (n : Nat) : ∀ c ∈ (natToStr n).data, c.isDigit = true := by
  induction n using Nat.strong_induction_on with
  | _ n ih =>
    intro c hc
    rw [natToStr_spec] at hc
    by_cases h : n < 10
    · rw [if_pos h] at hc
      simp at hc
      subst hc
      exact digitChar_isDigit _ (Nat.mod_lt _ (by omega))
    · rw [if_neg h] at hc
      rcases List.mem_append.1 hc with h1 | h1
      · exact ih (n / 10) (Nat.div_lt_self (by omega) (by omega)) c h1
      · simp at h1
        subst h1
        exact digitChar_isDigit _ (Nat.mod_lt _ (by omega))

theorem natToStr_ne_nil (n : Nat) : (natToStr n).data ≠ [] := by
  rw [natToStr_spec]
  by_cases h : n < 10 <;> simp [h]

theorem digitsToNat_append (l1 l2 : List Char) :
    digitsToNat (l1 ++ l2) = digitsToNat l1 * 10 ^ l2.length + digitsToNat l2 := by
  induction l1 with
  | nil => simp [digitsToNat]
  | cons c cs ih =>
    have h1 : (c :: cs) ++ l2 = c :: (cs ++ l2) := rfl
    rw [h1]
    show (c.toNat - 48) * 10 ^ (cs ++ l2).length + digitsToNat (cs ++ l2) = _
    rw [ih, List.length_append]
    simp only [digitsToNat]
    ring

theorem digitsToNat_natToStr (n : Nat) : digitsToNat (natToStr n).data = n := by
  induction n using Nat.strong_induction_on with
  | _ n ih =>
    rw [natToStr_spec]
    by_cases h : n < 10
    · rw [if_pos h]
      simp [digitsToNat, digitChar_toNat _ (Nat.mod_lt _ (by omega : (0:Nat) < 10))]
      omega
    · rw [if_neg h, digitsToNat_append]
      rw [ih (n / 10) (Nat.div_lt_self (by omega) (by omega))]
      simp [digitsToNat, digitChar_toNat _ (Nat.mod_lt _ (by omega : (0:Nat) < 10))]
      omega
/- ### Character-class lemmas for version strings -/

theorem pad02_digits (n : Nat) : ∀ c ∈ (pad02 n).data, c.isDigit = true := by
  intro c hc
  unfold pad02 at hc
  by_cases h : n < 10
  · rw [if_pos h, String.data_append] at hc
    rcases List.mem_append.1 hc with h1 | h1
    · simp at h1
      subst h1
      decide
    · exact natToStr_digits n c h1
  · rw [if_neg h] at hc
    exact natToStr_digits n c hc

theorem calverToday_chars (d : GoDate) :
    ∀ c ∈ (calverToday d).data, c.isDigit = true ∨ c = '.' := by
  intro c hc
  unfold calverToday at hc
  simp only [String.data_append, List.mem_append] at hc
  rcases hc with ((((h1 | h1) | h1) | h1) | h1)
  · exact Or.inl (natToStr_digits _ c h1)
  · simp at h1
    subst h1
    exact Or.inr rfl
  · exact Or.inl (pad02_digits _ c h1)
  · simp at h1
    subst h1
    exact Or.inr rfl
  · exact Or.inl (pad02_digits _ c h1)

theorem render_plain_data (v : SemVersion) (hp : v.pre = "") (hm : v.metadata = "") :
    (v.render).data = (natToStr v.major).data ++
      '.' :: ((natToStr v.minor).data ++ '.' :: (natToStr v.patch).data) := by
  unfold SemVersion.render
  rw [hp, hm]
  simp [String.data_append]

theorem render_plain_chars (v : SemVersion) (hp : v.pre = "") (hm : v.metadata = "") :
    ∀ c ∈ (v.render).data, c.isDigit = true ∨ c = '.' := by
  intro c hc
  rw [render_plain_data v hp hm] at hc
  rcases List.mem_append.1 hc with h1 | h1
  · exact Or.inl (natToStr_digits _ c h1)
  · rcases List.mem_cons.1 h1 with h2 | h2
    · exact Or.inr h2
    · rcases List.mem_append.1 h2 with h3 | h3
      · exact Or.inl (natToStr_digits _ c h3)
      · rcases List.mem_cons.1 h3 with h4 | h4
        · exact Or.inr h4
        · exact Or.inl (natToStr_digits _ c h4)

theorem takeDigits_eq (l : List Char) : l = (takeDigits l).1 ++ (takeDigits l).2 := by
  induction l with
  | nil => rfl
  | cons c cs ih =>
    unfold takeDigits
    by_cases h : c.isDigit
    · simp only [h, if_pos]
      conv_lhs => rw [ih]
      rfl
    · simp [h]

theorem takeDigits_mem (l : List Char) (x : Char) (h : x ∈ (takeDigits l).2) : x ∈ l := by
  have h2 : x ∈ (takeDigits l).1 ++ (takeDigits l).2 := List.mem_append_right _ h
  rw [← takeDigits_eq l] at h2
  exact h2

theorem parseVersionCore_rest_mem (cs : List Char) (a b c : Nat) (rest : List Char)
    (h : parseVersionCore cs = some (a, b, c, rest)) : ∀ x ∈ rest, x ∈ cs := by
  intro x hx
  unfold parseVersionCore at h
  split_ifs at h with h1 h2
  split at h
  next r2 heq =>
    split_ifs at h with h3 h4
    · simp only [Option.some.injEq, Prod.mk.injEq] at h
      obtain ⟨-, -, -, h5⟩ := h
      subst h5
      exact takeDigits_mem cs x hx
    · split at h
      next r4 heq2 =>
        split_ifs at h with h5 h6
        · simp only [Option.some.injEq, Prod.mk.injEq] at h
          obtain ⟨-, -, -, h7⟩ := h
          subst h7
          have s1 : x ∈ (takeDigits cs).2 := by
            rw [heq]
            exact List.mem_cons_of_mem _ (takeDigits_mem r2 x hx)
          exact takeDigits_mem cs x s1
        · simp only [Option.some.injEq, Prod.mk.injEq] at h
          obtain ⟨-, -, -, h7⟩ := h
          subst h7
          have s2 : x ∈ (takeDigits r2).2 := by
            rw [heq2]
            exact List.mem_cons_of_mem _ (takeDigits_mem r4 x hx)
          have s1 : x ∈ (takeDigits cs).2 := by
            rw [heq]
            exact List.mem_cons_of_mem _ (takeDigits_mem r2 x s2)
          exact takeDigits_mem cs x s1
      next heq2 =>
        simp only [Option.some.injEq, Prod.mk.injEq] at h
        obtain ⟨-, -, -, h7⟩ := h
        subst h7
        have s1 : x ∈ (takeDigits cs).2 := by
          rw [heq]
          exact List.mem_cons_of_mem _ (takeDigits_mem r2 x hx)
        exact takeDigits_mem cs x s1
  next heq =>
    simp only [Option.some.injEq, Prod.mk.injEq] at h
    obtain ⟨-, -, -, h5⟩ := h
    subst h5
    exact takeDigits_mem cs x hx

theorem parsePreMeta_shape (rest : List Char) (p m : String)
    (h : parsePreMeta rest = some (p, m)) :
    rest = [] ∧ p = "" ∧ m = "" ∨ '-' ∈ rest ∨ '+' ∈ rest := by
  rcases rest with _ | ⟨c2, r2⟩
  · left
    simp only [parsePreMeta, Option.some.injEq, Prod.mk.injEq] at h
    exact ⟨rfl, h.1.symm, h.2.symm⟩
  · right
    by_cases hdash : c2 = '-'
    · subst hdash
      exact Or.inl (by simp)
    · by_cases hplus : c2 = '+'
      · subst hplus
        exact Or.inr (by simp)
      · exfalso
        unfold parsePreMeta at h
        split at h <;> simp_all

theorem stripV_mem (l : List Char) (x : Char) (h : x ∈ stripV l) : x ∈ l := by
  unfold stripV at h
  split at h
  next r => exact List.mem_cons_of_mem _ h
  next => exact h

theorem newVersion_plain (s : String) (v : SemVersion) (h : newVersion s = some v)
    (hd : '-' ∉ s.data) (hpl : '+' ∉ s.data) : v.pre = "" ∧ v.metadata = "" := by
  unfold newVersion at h
  split at h
  · exact absurd h (by simp)
  next a b c rest heq2 =>
    have hrest : ∀ x ∈ rest, x ∈ s.data := fun x hxs =>
      stripV_mem _ x (parseVersionCore_rest_mem _ a b c rest heq2 x hxs)
    split at h
    · exact absurd h (by simp)
    next p m heq3 =>
      simp only [Option.some.injEq] at h
      subst h
      rcases parsePreMeta_shape rest p m heq3 with ⟨-, hp, hm⟩ | hmem | hmem
      · exact ⟨hp, hm⟩
      · exact absurd (hrest '-' hmem) hd
      · exact absurd (hrest '+' hmem) hpl
/- ### Suffix and prerelease-attachment lemmas -/

theorem endsWithS_of_data (suf s : String) (l : List Char) (h : s.data = l ++ suf.data) :
    endsWithS suf s = true := by
  unfold endsWithS
  rw [h, List.length_append]
  have h2 : l.length + suf.data.length - suf.data.length = l.length := by omega
  rw [h2, List.drop_left]
  simp

theorem setPre_rc0_endsWith (nv : String) (h : ∀ c ∈ nv.data, c.isDigit = true ∨ c = '.') :
    endsWithS "-rc.0" (semverSetPrerelease nv "rc.0") = true := by
  have hd : '-' ∉ nv.data := fun hm => by
    rcases h '-' hm with h1 | h1 <;> simp at h1
  have hp : '+' ∉ nv.data := fun hm => by
    rcases h '+' hm with h1 | h1 <;> simp at h1
  unfold semverSetPrerelease
  split
  next heq =>
    apply endsWithS_of_data _ _ nv.data
    show ((nv ++ "-") ++ "rc.0").data = _
    simp [String.data_append]
  next v heq =>
    obtain ⟨hpre, hmeta⟩ := newVersion_plain nv v heq hd hp
    unfold SemVersion.setPre
    have hval : validatePrerelease "rc.0" = true := by decide
    rw [if_neg (by simp [hval])]
    unfold SemVersion.render
    simp only
    rw [hmeta]
    apply endsWithS_of_data _ _
      ((natToStr v.major).data ++ '.' :: ((natToStr v.minor).data ++ '.' :: (natToStr v.patch).data))
    simp [String.data_append]

theorem semverNext_minor_chars (cur nv : String) (h : semverNext cur bumpMinor = .ok nv) :
    ∀ c ∈ nv.data, c.isDigit = true ∨ c = '.' := by
  by_cases hc : cur = ""
  · subst hc
    have h0 : semverNext "" bumpMinor = .ok "0.1.0" := by decide
    rw [h0] at h
    simp only [Except.ok.injEq] at h
    subst h
    decide
  · unfold semverNext at h
    rw [if_neg (by simp [hc])] at h
    split at h
    · simp at h
    next v heq =>
      rw [if_pos rfl] at h
      simp only [Except.ok.injEq] at h
      subst h
      exact render_plain_chars _ rfl rfl
/- ### Well-formedness of parsed versions, and the parse-render round trip -/

theorem isDigit_ne_v (c : Char) (h : c.isDigit = true) : c ≠ 'v' := by
  intro he
  subst he
  simp at h

theorem stripV_cons (c : Char) (r : List Char) (h : c ≠ 'v') : stripV (c :: r) = c :: r := by
  unfold stripV
  split
  next r2 heq =>
    injection heq with h1 h2
    exact absurd h1 h
  next => rfl

theorem segsOk_no_plus (l : List Char) : ∀ b : Bool, segsOk b l = true → '+' ∉ l := by
  induction l with
  | nil => intro b _ h; simp at h
  | cons c rest ih =>
    intro b h hm
    unfold segsOk at h
    by_cases hc : c = '.'
    · rw [if_pos hc] at h
      rcases List.mem_cons.1 hm with h1 | h1
      · rw [hc] at h1
        simp at h1
      · exact ih false (Bool.and_elim_right h) h1
    · rw [if_neg hc] at h
      rcases List.mem_cons.1 hm with h1 | h1
      · rw [← h1] at h
        simp [isSemChar] at h
      · exact ih true (Bool.and_elim_right h) h1

theorem takeWhile_append_all (p : Char → Bool) (l1 l2 : List Char)
    (h1 : ∀ a ∈ l1, p a = true) (h2 : ∀ c rs, l2 = c :: rs → p c = false) :
    (l1 ++ l2).takeWhile p = l1 ∧ (l1 ++ l2).dropWhile p = l2 := by
  induction l1 with
  | nil =>
    cases l2 with
    | nil => exact ⟨rfl, rfl⟩
    | cons c rs =>
      have := h2 c rs rfl
      simp [List.takeWhile, List.dropWhile, this]
  | cons a l1' ih =>
    have ha := h1 a (by simp)
    have ih2 := ih (fun x hx => h1 x (by simp [hx]))
    simp [List.takeWhile, List.dropWhile, ha, ih2.1, ih2.2]

theorem parseVersionCore_bounds (cs : List Char) (a b c : Nat) (rest : List Char)
    (h : parseVersionCore cs = some (a, b, c, rest)) :
    a < 2 ^ 64 ∧ b < 2 ^ 64 ∧ c < 2 ^ 64 := by
  unfold parseVersionCore at h
  split_ifs at h with h1 h2
  split at h
  next r2 heq =>
    split_ifs at h with h3 h4
    · simp only [Option.some.injEq, Prod.mk.injEq] at h
      obtain ⟨ha, hb, hc, -⟩ := h
      refine ⟨ha ▸ (by omega), hb ▸ (by norm_num), hc ▸ (by norm_num)⟩
    · split at h
      next r4 heq2 =>
        split_ifs at h with h5 h6
        · simp only [Option.some.injEq, Prod.mk.injEq] at h
          obtain ⟨ha, hb, hc, -⟩ := h
          refine ⟨ha ▸ (by omega), hb ▸ (by omega), hc ▸ (by norm_num)⟩
        · simp only [Option.some.injEq, Prod.mk.injEq] at h
          obtain ⟨ha, hb, hc, -⟩ := h
          refine ⟨ha ▸ (by omega), hb ▸ (by omega), hc ▸ (by omega)⟩
      next heq2 =>
        simp only [Option.some.injEq, Prod.mk.injEq] at h
        obtain ⟨ha, hb, hc, -⟩ := h
        refine ⟨ha ▸ (by omega), hb ▸ (by omega), hc ▸ (by norm_num)⟩
  next heq =>
    simp only [Option.some.injEq, Prod.mk.injEq] at h
    obtain ⟨ha, hb, hc, -⟩ := h
    refine ⟨ha ▸ (by omega), hb ▸ (by norm_num), hc ▸ (by norm_num)⟩

theorem parsePreMeta_wf (rest : List Char) (p m : String)
    (h : parsePreMeta rest = some (p, m)) :
    (p = "" ∨ segsOkStart p.data = true) ∧ (m = "" ∨ segsOkStart m.data = true) := by
  rcases rest with _ | ⟨c2, r2⟩
  · simp only [parsePreMeta, Option.some.injEq, Prod.mk.injEq] at h
    exact ⟨Or.inl h.1.symm, Or.inl h.2.symm⟩
  · by_cases hdash : c2 = '-'
    · subst hdash
      simp only [parsePreMeta] at h
      split_ifs at h with h1
      split at h
      next heq =>
        simp only [Option.some.injEq, Prod.mk.injEq] at h
        obtain ⟨hp, hm⟩ := h
        exact ⟨Or.inr (by rw [← hp]; exact h1), Or.inl hm.symm⟩
      next m2 heq =>
        split_ifs at h with h2
        simp only [Option.some.injEq, Prod.mk.injEq] at h
        obtain ⟨hp, hm⟩ := h
        exact ⟨Or.inr (by rw [← hp]; exact h1), Or.inr (by rw [← hm]; exact h2)⟩
      next heq => simp at h
    · by_cases hplus : c2 = '+'
      · subst hplus
        simp only [parsePreMeta] at h
        split_ifs at h with h1
        simp only [Option.some.injEq, Prod.mk.injEq] at h
        obtain ⟨hp, hm⟩ := h
        exact ⟨Or.inl hp.symm, Or.inr (by rw [← hm]; exact h1)⟩
      · exfalso
        unfold parsePreMeta at h
        split at h <;> simp_all

theorem newVersion_wf (s : String) (v : SemVersion) (h : newVersion s = some v) :
    v.major < 2 ^ 64 ∧ v.minor < 2 ^ 64 ∧ v.patch < 2 ^ 64 ∧
    (v.pre = "" ∨ segsOkStart v.pre.data = true) ∧
    (v.metadata = "" ∨ segsOkStart v.metadata.data = true) := by
  unfold newVersion at h
  split at h
  · exact absurd h (by simp)
  next a b c rest heq2 =>
    split at h
    · exact absurd h (by simp)
    next p m heq3 =>
      simp only [Option.some.injEq] at h
      subst h
      obtain ⟨ha, hb, hc⟩ := parseVersionCore_bounds _ a b c rest heq2
      obtain ⟨hp, hm⟩ := parsePreMeta_wf rest p m heq3
      exact ⟨ha, hb, hc, hp, hm⟩
theorem natToStr_isEmpty_false (n : Nat) : (natToStr n).data.isEmpty = false := by
  cases hD : (natToStr n).data with
  | nil => exact absurd hD (natToStr_ne_nil n)
  | cons a l => rfl

theorem takeDigits_append (d r : List Char) (hd : ∀ c ∈ d, c.isDigit = true)
    (hr : ∀ c rs, r = c :: rs → c.isDigit = false) :
    takeDigits (d ++ r) = (d, r) := by
  induction d with
  | nil =>
    cases r with
    | nil => rfl
    | cons c rs =>
      have hc := hr c rs rfl
      simp only [List.nil_append]
      unfold takeDigits
      simp [hc]
  | cons c cs ih =>
    have hc := hd c (by simp)
    have ih2 := ih (fun x hx => hd x (by simp [hx]))
    simp only [List.cons_append]
    unfold takeDigits
    simp [hc, ih2]

theorem render_data (v : SemVersion) :
    v.render.data = (natToStr v.major).data ++ '.' :: ((natToStr v.minor).data ++ '.' ::
      ((natToStr v.patch).data ++
        ((if v.pre = "" then [] else '-' :: v.pre.data) ++
          (if v.metadata = "" then [] else '+' :: v.metadata.data)))) := by
  unfold SemVersion.render
  by_cases hp : v.pre = "" <;> by_cases hm : v.metadata = "" <;>
    simp [hp, hm, String.data_append]

theorem parseVersionCore_render (ma mi pa : Nat) (tailL : List Char)
    (hma : ma < 2 ^ 64) (hmi : mi < 2 ^ 64) (hpa : pa < 2 ^ 64)
    (htail : tailL = [] ∨ ∃ c rs, tailL = c :: rs ∧ c.isDigit = false) :
    parseVersionCore ((natToStr ma).data ++
        '.' :: ((natToStr mi).data ++ '.' :: ((natToStr pa).data ++ tailL))) =
      some (ma, mi, pa, tailL) := by
  have hdot : ∀ (x : List Char) (c : Char) (rs : List Char),
      ('.' : Char) :: x = c :: rs → c.isDigit = false := by
    intro x c rs h
    injection h with h1 _
    rw [← h1]
    decide
  have htl : ∀ c rs, tailL = c :: rs → c.isDigit = false := by
    intro c rs h
    rcases htail with h1 | ⟨c2, rs2, h1, h2⟩
    · rw [h1] at h
      simp at h
    · rw [h1] at h
      injection h with h3 _
      rw [← h3]
      exact h2
  have t3 := takeDigits_append (natToStr pa).data tailL (natToStr_digits pa) htl
  have t2 := takeDigits_append (natToStr mi).data ('.' :: ((natToStr pa).data ++ tailL))
    (natToStr_digits mi) (hdot _)
  have t1 := takeDigits_append (natToStr ma).data
    ('.' :: ((natToStr mi).data ++ '.' :: ((natToStr pa).data ++ tailL)))
    (natToStr_digits ma) (hdot _)
  have hma' : ¬(2 ^ 64 ≤ ma) := by omega
  have hmi' : ¬(2 ^ 64 ≤ mi) := by omega
  have hpa' : ¬(2 ^ 64 ≤ pa) := by omega
  unfold parseVersionCore
  simp [t1, t2, t3, digitsToNat_natToStr, natToStr_isEmpty_false, hma', hmi', hpa']
  exact ⟨hma, hmi, hpa⟩

theorem takeWhile_all (p : Char → Bool) (l : List Char) (h : ∀ a ∈ l, p a = true) :
    l.takeWhile p = l ∧ l.dropWhile p = [] := by
  have h2 := takeWhile_append_all p l [] h (by intro c rs hx; simp at hx)
  rwa [List.append_nil] at h2

theorem parsePreMeta_render (pre meta : String)
    (hpre : pre = "" ∨ segsOkStart pre.data = true)
    (hmeta : meta = "" ∨ segsOkStart meta.data = true) :
    parsePreMeta ((if pre = "" then [] else '-' :: pre.data) ++
      (if meta = "" then [] else '+' :: meta.data)) = some (pre, meta) := by
  by_cases hpe : pre = "" <;> by_cases hme : meta = ""
  · subst hpe
    subst hme
    rfl
  · have hsm : segsOkStart meta.data = true := hmeta.resolve_left hme
    subst hpe
    have h1 : ((if ("" : String) = "" then [] else '-' :: ("" : String).data) ++
        (if meta = "" then [] else '+' :: meta.data)) = '+' :: meta.data := by
      simp [hme]
    rw [h1]
    simp only [parsePreMeta, hsm, if_true]
  · have hsp : segsOkStart pre.data = true := hpre.resolve_left hpe
    have hnp : '+' ∉ pre.data := segsOk_no_plus pre.data false hsp
    have htw := takeWhile_all (fun c => !(c = '+')) pre.data (by
      intro a ha
      simp only [Bool.not_eq_true']
      exact decide_eq_false (fun he => hnp (he ▸ ha)))
    subst hme
    have h1 : ((if pre = "" then [] else '-' :: pre.data) ++
        (if ("" : String) = "" then [] else '+' :: ("" : String).data)) = '-' :: pre.data := by
      simp [hpe]
    rw [h1]
    simp only [parsePreMeta, htw.1, htw.2, hsp, if_true]
  · have hsp : segsOkStart pre.data = true := hpre.resolve_left hpe
    have hsm : segsOkStart meta.data = true := hmeta.resolve_left hme
    have hnp : '+' ∉ pre.data := segsOk_no_plus pre.data false hsp
    have htw := takeWhile_append_all (fun c => !(c = '+')) pre.data ('+' :: meta.data)
      (by
        intro a ha
        simp only [Bool.not_eq_true']
        exact decide_eq_false (fun he => hnp (he ▸ ha)))
      (by
        intro c rs hx
        injection hx with h1 _
        rw [← h1]
        decide)
    simp only [if_neg hpe, if_neg hme]
    simp only [List.cons_append]
    simp only [parsePreMeta, htw.1, htw.2, hsp, hsm, if_true]

theorem stripV_digits_head (d rest : List Char) (hne : d ≠ [])
    (hd : ∀ c ∈ d, c.isDigit = true) : stripV (d ++ rest) = d ++ rest := by
  cases d with
  | nil => exact absurd rfl hne
  | cons c0 cs0 =>
    rw [List.cons_append, stripV_cons _ _ (isDigit_ne_v c0 (hd c0 (by simp)))]

theorem newVersion_render (ma mi pa : Nat) (pre meta : String)
    (hma : ma < 2 ^ 64) (hmi : mi < 2 ^ 64) (hpa : pa < 2 ^ 64)
    (hpre : pre = "" ∨ segsOkStart pre.data = true)
    (hmeta : meta = "" ∨ segsOkStart meta.data = true) :
    newVersion (SemVersion.render ⟨ma, mi, pa, pre, meta⟩) = some ⟨ma, mi, pa, pre, meta⟩ := by
  have hdata := render_data ⟨ma, mi, pa, pre, meta⟩
  simp only at hdata
  have hside : ((if pre = "" then [] else '-' :: pre.data) ++
      (if meta = "" then [] else '+' :: meta.data)) = ([] : List Char) ∨
      ∃ c rs, ((if pre = "" then [] else '-' :: pre.data) ++
        (if meta = "" then [] else '+' :: meta.data)) = c :: rs ∧ c.isDigit = false := by
    by_cases hpe : pre = "" <;> by_cases hme : meta = "" <;> simp [hpe, hme]
  have hall : ∀ c ∈ (natToStr ma).data ++
      '.' :: ((natToStr mi).data ++ '.' :: ((natToStr pa).data ++
        ((if pre = "" then [] else '-' :: pre.data) ++
          (if meta = "" then [] else '+' :: meta.data)))), True := fun _ _ => trivial
  unfold newVersion
  rw [hdata, stripV_digits_head _ _ (natToStr_ne_nil ma) (natToStr_digits ma),
    parseVersionCore_render ma mi pa _ hma hmi hpa hside]
  dsimp only
  rw [parsePreMeta_render pre meta hpre hmeta]
/- ### Segment grammar: soundness and completeness of segsOk -/

theorem isDigit_toNat_bounds (c : Char) (h : c.isDigit = true) :
    48 ≤ c.toNat ∧ c.toNat ≤ 57 := by
  simp [Char.isDigit] at h
  exact h

theorem digitsToNat_lt (l : List Char) (h : ∀ c ∈ l, c.isDigit = true) :
    digitsToNat l < 10 ^ l.length := by
  induction l with
  | nil => simp [digitsToNat]
  | cons c cs ih =>
    have hb := isDigit_toNat_bounds c (h c (by simp))
    have ih2 := ih (fun x hx => h x (by simp [hx]))
    simp only [digitsToNat, List.length_cons]
    have h9 : c.toNat - 48 ≤ 9 := by omega
    calc (c.toNat - 48) * 10 ^ cs.length + digitsToNat cs
        ≤ 9 * 10 ^ cs.length + digitsToNat cs := by
          exact Nat.add_le_add_right (Nat.mul_le_mul_right _ h9) _
      _ < 9 * 10 ^ cs.length + 10 ^ cs.length := by omega
      _ = 10 ^ (cs.length + 1) := by ring

theorem isSemChar_ne_dot (c : Char) (h : isSemChar c = true) : c ≠ '.' := by
  intro he
  subst he
  simp [isSemChar] at h

theorem segsOk_nil (b : Bool) : segsOk b [] = b := rfl

theorem segsOk_cons (b : Bool) (c : Char) (rest : List Char) :
    segsOk b (c :: rest) =
      if c = '.' then b && segsOk false rest else isSemChar c && segsOk true rest := rfl

theorem segsChars_ok (g : List Char) (h : ∀ c ∈ g, isSemChar c = true) :
    segsOk true g = true := by
  induction g with
  | nil => rfl
  | cons c r ih =>
    have hc := h c (by simp)
    rw [segsOk_cons, if_neg (isSemChar_ne_dot c hc), hc, Bool.true_and]
    exact ih (fun x hx => h x (by simp [hx]))

theorem segsOk_append_seg (g r : List Char) (hg : ∀ c ∈ g, isSemChar c = true) :
    segsOk true (g ++ '.' :: r) = segsOk false r := by
  induction g with
  | nil =>
    rw [List.nil_append, segsOk_cons, if_pos rfl, Bool.true_and]
  | cons c g' ih =>
    have hc := hg c (by simp)
    rw [List.cons_append, segsOk_cons, if_neg (isSemChar_ne_dot c hc), hc, Bool.true_and]
    exact ih (fun x hx => hg x (by simp [hx]))

theorem segsOk_complete (segs : List (List Char)) (hne : segs ≠ [])
    (hall : ∀ g ∈ segs, g ≠ [] ∧ ∀ c ∈ g, isSemChar c = true) :
    segsOk false (dotJoin segs) = true := by
  induction segs with
  | nil => exact absurd rfl hne
  | cons g gs ih =>
    obtain ⟨hgne, hgch⟩ := hall g (by simp)
    cases gs with
    | nil =>
      show segsOk false (dotJoin [g]) = true
      unfold dotJoin
      cases g with
      | nil => exact absurd rfl hgne
      | cons c r =>
        have hc := hgch c (by simp)
        rw [segsOk_cons, if_neg (isSemChar_ne_dot c hc), hc, Bool.true_and]
        exact segsChars_ok r (fun x hx => hgch x (by simp [hx]))
    | cons g2 gs2 =>
      have hd : dotJoin (g :: g2 :: gs2) = g ++ '.' :: dotJoin (g2 :: gs2) := rfl
      rw [hd]
      cases g with
      | nil => exact absurd rfl hgne
      | cons c r =>
        have hc := hgch c (by simp)
        rw [List.cons_append, segsOk_cons, if_neg (isSemChar_ne_dot c hc), hc, Bool.true_and,
          segsOk_append_seg r _ (fun x hx => hgch x (by simp [hx]))]
        exact ih (by simp) (fun x hx => hall x (by simp [hx]))

theorem segsOk_true_decomp (l : List Char) : segsOk true l = true →
    ∃ g rest, l = g ++ rest ∧ (∀ c ∈ g, isSemChar c = true) ∧
      (rest = [] ∨ ∃ r2, rest = '.' :: r2 ∧ segsOk false r2 = true) := by
  induction l with
  | nil => intro _; exact ⟨[], [], rfl, by simp, Or.inl rfl⟩
  | cons c r ih =>
    intro hb
    rw [segsOk_cons] at hb
    by_cases hc : c = '.'
    · rw [if_pos hc, Bool.true_and] at hb
      subst hc
      exact ⟨[], '.' :: r, rfl, by simp, Or.inr ⟨r, rfl, hb⟩⟩
    · rw [if_neg hc, Bool.and_eq_true] at hb
      obtain ⟨g, rest, hlr, hg, hrest⟩ := ih hb.2
      exact ⟨c :: g, rest, by rw [List.cons_append, ← hlr], fun x hx => by
        rcases List.mem_cons.1 hx with h1 | h1
        · rw [h1]; exact hb.1
        · exact hg x h1, hrest⟩

theorem segsOk_sound_aux (n : Nat) : ∀ l : List Char, l.length ≤ n →
    segsOk false l = true → segsGrammar l := by
  induction n with
  | zero =>
    intro l hl h
    cases l with
    | nil => simp [segsOk_nil] at h
    | cons c r => simp at hl
  | succ n ih =>
    intro l hl h
    cases l with
    | nil => simp [segsOk_nil] at h
    | cons c r =>
      rw [segsOk_cons] at h
      by_cases hc : c = '.'
      · rw [if_pos hc] at h
        simp at h
      · rw [if_neg hc, Bool.and_eq_true] at h
        obtain ⟨g, rest, hlr, hg, hrest⟩ := segsOk_true_decomp r h.2
        rcases hrest with hre | ⟨r2, hre, hr2⟩
        · refine ⟨[c :: g], by simp, ?_, ?_⟩
          · intro g2 hg2
            simp at hg2
            subst hg2
            refine ⟨by simp, ?_⟩
            intro x hx
            rcases List.mem_cons.1 hx with h1 | h1
            · rw [h1]; exact h.1
            · exact hg x h1
          · show c :: r = dotJoin [c :: g]
            unfold dotJoin
            rw [hlr, hre, List.append_nil]
        · have hrlen : r.length ≤ n := by
            simp only [List.length_cons] at hl
            omega
          have hr2len : r2.length ≤ n := by
            have h1 : r.length = g.length + r2.length + 1 := by
              rw [hlr, hre]
              simp [List.length_append]
              omega
            omega
          obtain ⟨segs2, hs2ne, hs2all, hs2join⟩ := ih r2 hr2len hr2
          refine ⟨(c :: g) :: segs2, by simp, ?_, ?_⟩
          · intro g2 hg2
            rcases List.mem_cons.1 hg2 with h1 | h1
            · subst h1
              refine ⟨by simp, ?_⟩
              intro x hx
              rcases List.mem_cons.1 hx with h2 | h2
              · rw [h2]; exact h.1
              · exact hg x h2
            · exact hs2all g2 h1
          · cases segs2 with
            | nil => exact absurd rfl hs2ne
            | cons s2 ss2 =>
              have hd : dotJoin ((c :: g) :: s2 :: ss2) =
                  (c :: g) ++ '.' :: dotJoin (s2 :: ss2) := rfl
              rw [hd, ← hs2join, ← hre, List.cons_append, ← hlr]

theorem segsOk_sound (l : List Char) (h : segsOk false l = true) : segsGrammar l :=
  segsOk_sound_aux l.length l le_rfl h
/- ### CalVer grammar equivalence -/

theorem list_len4 (l : List Char) (h : l.length = 4) : ∃ a b c d, l = [a, b, c, d] := by
  cases l with
  | nil => simp at h
  | cons a l1 =>
    cases l1 with
    | nil => simp at h
    | cons b l2 =>
      cases l2 with
      | nil => simp at h
      | cons c l3 =>
        cases l3 with
        | nil => simp at h
        | cons d l4 =>
          cases l4 with
          | nil => exact ⟨a, b, c, d, rfl⟩
          | cons e l5 =>
            simp only [List.length_cons, List.length_nil] at h
            omega

theorem list_len2 (l : List Char) (h : l.length = 2) : ∃ a b, l = [a, b] := by
  cases l with
  | nil => simp at h
  | cons a l1 =>
    cases l1 with
    | nil => simp at h
    | cons b l2 =>
      cases l2 with
      | nil => exact ⟨a, b, rfl⟩
      | cons c l3 =>
        simp only [List.length_cons, List.length_nil] at h
        omega

theorem calverIsValid_iff (s : String) : calverIsValid s = true ↔ calverGrammar s := by
  constructor
  · intro h
    unfold calverIsValid at h
    rw [Option.isSome_iff_exists] at h
    obtain ⟨p, hp⟩ := h
    unfold calverParse at hp
    split at hp
    next y1 y2 y3 y4 m1 m2 d1 d2 rest heq =>
      split_ifs at hp with hdig
      simp only [Bool.and_eq_true] at hdig
      obtain ⟨⟨⟨⟨⟨⟨⟨hy1, hy2⟩, hy3⟩, hy4⟩, hm1⟩, hm2⟩, hd1⟩, hd2⟩ := hdig
      split at hp
      next =>
        refine ⟨[y1, y2, y3, y4], [m1, m2], [d1, d2], none, rfl, rfl, rfl, ?_, ?_, ?_, ?_, ?_⟩
        · intro c hc
          simp at hc
          rcases hc with rfl | rfl | rfl | rfl <;> assumption
        · intro c hc
          simp at hc
          rcases hc with rfl | rfl <;> assumption
        · intro c hc
          simp at hc
          rcases hc with rfl | rfl <;> assumption
        · intro n hn
          simp at hn
        · rw [heq]
          simp
      next ds =>
        split_ifs at hp with hds
        simp at hds
        refine ⟨[y1, y2, y3, y4], [m1, m2], [d1, d2], some ds, rfl, rfl, rfl, ?_, ?_, ?_, ?_, ?_⟩
        · intro c hc
          simp at hc
          rcases hc with rfl | rfl | rfl | rfl <;> assumption
        · intro c hc
          simp at hc
          rcases hc with rfl | rfl <;> assumption
        · intro c hc
          simp at hc
          rcases hc with rfl | rfl <;> assumption
        · intro n hn
          injection hn with hn
          subst hn
          exact ⟨hds.1, hds.2⟩
        · rw [heq]
          simp
      next =>
        simp at hp
    next heq =>
      simp at hp
  · rintro ⟨y, m, d, suf, hy4, hm2, hd2, hyd, hmd, hdd, hsuf, hs⟩
    obtain ⟨a1, a2, a3, a4, rfl⟩ := list_len4 y hy4
    obtain ⟨b1, b2, rfl⟩ := list_len2 m hm2
    obtain ⟨c1, c2, rfl⟩ := list_len2 d hd2
    have ha1 := hyd a1 (by simp)
    have ha2 := hyd a2 (by simp)
    have ha3 := hyd a3 (by simp)
    have ha4 := hyd a4 (by simp)
    have hb1 := hmd b1 (by simp)
    have hb2 := hmd b2 (by simp)
    have hc1 := hdd c1 (by simp)
    have hc2 := hdd c2 (by simp)
    unfold calverIsValid calverParse
    rcases suf with _ | n
    · rw [show s.data = [a1, a2, a3, a4] ++ '.' :: [b1, b2] ++ '.' :: [c1, c2] ++ [] from hs]
      simp only [List.cons_append, List.nil_append, List.append_nil]
      simp [ha1, ha2, ha3, ha4, hb1, hb2, hc1, hc2]
    · obtain ⟨hne, hdig⟩ := hsuf n rfl
      rw [show s.data = [a1, a2, a3, a4] ++ '.' :: [b1, b2] ++ '.' :: [c1, c2] ++ '-' :: n from hs]
      simp only [List.cons_append, List.nil_append, List.append_nil]
      have hie : n.isEmpty = false := by
        cases n with
        | nil => exact absurd rfl hne
        | cons x xs => rfl
      have hall : n.all Char.isDigit = true := by
        rw [List.all_eq_true]
        exact hdig
      simp [ha1, ha2, ha3, ha4, hb1, hb2, hc1, hc2, hie, hall]
/- ### SemVer grammar: soundness of the parser -/

theorem takeDigits_digits (l : List Char) : ∀ c ∈ (takeDigits l).1, c.isDigit = true := by
  induction l with
  | nil => intro c hc; simp [takeDigits] at hc
  | cons a r ih =>
    intro c hc
    unfold takeDigits at hc
    by_cases ha : a.isDigit
    · simp only [ha, if_pos] at hc
      rcases List.mem_cons.1 hc with h1 | h1
      · rw [h1]; exact ha
      · exact ih c h1
    · simp [ha] at hc

theorem isEmpty_false_ne_nil (l : List Char) (h : ¬l.isEmpty = true) : l ≠ [] := by
  cases l with
  | nil => simp at h
  | cons a r => simp

theorem parseVersionCore_decomp (cs : List Char) (a b c : Nat) (rest : List Char)
    (h : parseVersionCore cs = some (a, b, c, rest)) :
    ∃ nums : List (List Char), numsGrammar nums ∧ cs = dotJoin nums ++ rest := by
  unfold parseVersionCore at h
  split_ifs at h with h1 h2
  have hd1 : (takeDigits cs).1 ≠ [] := isEmpty_false_ne_nil _ h1
  have hd1d := takeDigits_digits cs
  have hb1 : digitsToNat (takeDigits cs).1 < 2 ^ 64 := by omega
  split at h
  next r2 heq =>
    have hd2d := takeDigits_digits r2
    split_ifs at h with h3 h4
    · simp only [Option.some.injEq, Prod.mk.injEq] at h
      obtain ⟨-, -, -, h5⟩ := h
      subst h5
      exact ⟨[(takeDigits cs).1], ⟨by simp, by simp, by
        intro g hg
        simp at hg
        subst hg
        exact ⟨hd1, hd1d, hb1⟩⟩, takeDigits_eq cs⟩
    · have hd2 : (takeDigits r2).1 ≠ [] := isEmpty_false_ne_nil _ h3
      have hb2 : digitsToNat (takeDigits r2).1 < 2 ^ 64 := by omega
      split at h
      next r4 heq2 =>
        have hd3d := takeDigits_digits r4
        split_ifs at h with h5 h6
        · simp only [Option.some.injEq, Prod.mk.injEq] at h
          obtain ⟨-, -, -, h7⟩ := h
          subst h7
          refine ⟨[(takeDigits cs).1, (takeDigits r2).1], ⟨by simp, by simp, ?_⟩, ?_⟩
          · intro g hg
            rcases List.mem_cons.1 hg with h8 | h8
            · subst h8; exact ⟨hd1, hd1d, hb1⟩
            · simp at h8
              subst h8
              exact ⟨hd2, hd2d, hb2⟩
          · have e1 := takeDigits_eq cs
            have e2 := takeDigits_eq r2
            rw [heq] at e1
            show cs = (takeDigits cs).1 ++ '.' :: (takeDigits r2).1 ++ (takeDigits r2).2
            conv_lhs => rw [e1]
            conv_lhs => rw [e2]
            simp
        · have hd3 : (takeDigits r4).1 ≠ [] := isEmpty_false_ne_nil _ h5
          have hb3 : digitsToNat (takeDigits r4).1 < 2 ^ 64 := by omega
          simp only [Option.some.injEq, Prod.mk.injEq] at h
          obtain ⟨-, -, -, h7⟩ := h
          subst h7
          refine ⟨[(takeDigits cs).1, (takeDigits r2).1, (takeDigits r4).1],
            ⟨by simp, by simp, ?_⟩, ?_⟩
          · intro g hg
            rcases List.mem_cons.1 hg with h8 | h8
            · subst h8; exact ⟨hd1, hd1d, hb1⟩
            rcases List.mem_cons.1 h8 with h9 | h9
            · subst h9; exact ⟨hd2, hd2d, hb2⟩
            · simp at h9
              subst h9
              exact ⟨hd3, hd3d, hb3⟩
          · have e1 := takeDigits_eq cs
            have e2 := takeDigits_eq r2
            have e3 := takeDigits_eq r4
            rw [heq] at e1
            rw [heq2] at e2
            show cs = ((takeDigits cs).1 ++ '.' :: ((takeDigits r2).1 ++ '.' :: (takeDigits r4).1))
              ++ (takeDigits r4).2
            conv_lhs => rw [e1]
            conv_lhs => rw [e2]
            conv_lhs => rw [e3]
            simp
      next heq2 =>
        simp only [Option.some.injEq, Prod.mk.injEq] at h
        obtain ⟨-, -, -, h7⟩ := h
        subst h7
        refine ⟨[(takeDigits cs).1, (takeDigits r2).1], ⟨by simp, by simp, ?_⟩, ?_⟩
        · intro g hg
          rcases List.mem_cons.1 hg with h8 | h8
          · subst h8; exact ⟨hd1, hd1d, hb1⟩
          · simp at h8
            subst h8
            exact ⟨hd2, hd2d, hb2⟩
        · have e1 := takeDigits_eq cs
          have e2 := takeDigits_eq r2
          rw [heq] at e1
          show cs = (takeDigits cs).1 ++ '.' :: (takeDigits r2).1 ++ (takeDigits r2).2
          conv_lhs => rw [e1]
          conv_lhs => rw [e2]
          simp
  next heq =>
    simp only [Option.some.injEq, Prod.mk.injEq] at h
    obtain ⟨-, -, -, h5⟩ := h
    subst h5
    exact ⟨[(takeDigits cs).1], ⟨by simp, by simp, by
      intro g hg
      simp at hg
      subst hg
      exact ⟨hd1, hd1d, hb1⟩⟩, takeDigits_eq cs⟩

theorem parsePreMeta_tailGrammar (rest : List Char) (p m : String)
    (h : parsePreMeta rest = some (p, m)) : tailGrammar rest := by
  rcases rest with _ | ⟨c2, r2⟩
  · exact Or.inl rfl
  · by_cases hdash : c2 = '-'
    · subst hdash
      simp only [parsePreMeta] at h
      split_ifs at h with h1
      have hsplit := List.takeWhile_append_dropWhile
        (p := fun c => !(c = '+')) (l := r2)
      split at h
      next heq =>
        rw [heq, List.append_nil] at hsplit
        refine Or.inr (Or.inl ⟨r2, segsOk_sound r2 ?_, rfl⟩)
        rw [← hsplit]
        exact h1
      next m2 heq =>
        split_ifs at h with h2
        refine Or.inr (Or.inr (Or.inr ⟨r2.takeWhile (fun c => !(c = '+')), m2,
          segsOk_sound _ h1, segsOk_sound _ h2, ?_⟩))
        conv_lhs => rw [← hsplit, heq]
      next heq =>
        simp at h
    · by_cases hplus : c2 = '+'
      · subst hplus
        simp only [parsePreMeta] at h
        split_ifs at h with h1
        exact Or.inr (Or.inr (Or.inl ⟨r2, segsOk_sound r2 h1, rfl⟩))
      · exfalso
        unfold parsePreMeta at h
        split at h <;> simp_all

theorem stripV_decomp (l : List Char) : l = stripV l ∨ l = 'v' :: stripV l := by
  cases l with
  | nil => exact Or.inl rfl
  | cons c r =>
    by_cases hc : c = 'v'
    · subst hc
      exact Or.inr rfl
    · exact Or.inl (by rw [stripV_cons c r hc])

theorem semverIsValid_sound (s : String) (h : semverIsValid s = true) : semverGrammar s := by
  unfold semverIsValid at h
  rw [Option.isSome_iff_exists] at h
  obtain ⟨v, hv⟩ := h
  unfold newVersion at hv
  split at hv
  · simp at hv
  next a b c rest heq2 =>
    split at hv
    · simp at hv
    next p m heq3 =>
      obtain ⟨nums, hng, hcs⟩ := parseVersionCore_decomp _ a b c rest heq2
      have htg := parsePreMeta_tailGrammar rest p m heq3
      rcases stripV_decomp s.data with hd | hd
      · exact ⟨[], nums, rest, Or.inl rfl, hng, htg, by rw [hd, hcs]; simp⟩
      · exact ⟨['v'], nums, rest, Or.inr rfl, hng, htg, by rw [hd, hcs]; simp⟩
/- ### SemVer grammar: completeness of the parser -/

theorem isSemChar_of_digit (c : Char) (h : c.isDigit = true) : isSemChar c = true := by
  unfold isSemChar
  rw [h]
  rfl

theorem list_isEmpty_false_of_ne (l : List Char) (h : l ≠ []) : l.isEmpty = false := by
  cases l with
  | nil => exact absurd rfl h
  | cons a r => rfl

theorem parseVersionCore_one (n1 tail : List Char) (hne : n1 ≠ [])
    (hd : ∀ c ∈ n1, c.isDigit = true) (hb : digitsToNat n1 < 2 ^ 64)
    (ht : tail = [] ∨ ∃ c rs, tail = c :: rs ∧ c.isDigit = false ∧ c ≠ '.') :
    parseVersionCore (n1 ++ tail) = some (digitsToNat n1, 0, 0, tail) := by
  have htl : ∀ c rs, tail = c :: rs → c.isDigit = false := by
    intro c rs h
    rcases ht with h1 | ⟨c2, rs2, h1, h2, h3⟩
    · rw [h1] at h; simp at h
    · rw [h1] at h
      injection h with h4 _
      rw [← h4]
      exact h2
  have t1 := takeDigits_append n1 tail hd htl
  have hie := list_isEmpty_false_of_ne n1 hne
  have hnb : ¬(2 ^ 64 ≤ digitsToNat n1) := by omega
  unfold parseVersionCore
  rcases ht with rfl | ⟨c0, rs0, rfl, hcd, hdot⟩
  · have t1n : takeDigits n1 = (n1, ([] : List Char)) := by simpa using t1
    simp [t1n, hne, hnb]
    omega
  · simp only [t1, hie, Bool.false_eq_true, if_false, hnb]
    split
    next r2 heq =>
      exfalso
      injection heq with h4 _
      exact hdot h4
    next heq => rfl

theorem parseVersionCore_two (n1 n2 tail : List Char)
    (hne1 : n1 ≠ []) (hd1 : ∀ c ∈ n1, c.isDigit = true) (hb1 : digitsToNat n1 < 2 ^ 64)
    (hne2 : n2 ≠ []) (hd2 : ∀ c ∈ n2, c.isDigit = true) (hb2 : digitsToNat n2 < 2 ^ 64)
    (ht : tail = [] ∨ ∃ c rs, tail = c :: rs ∧ c.isDigit = false ∧ c ≠ '.') :
    parseVersionCore (n1 ++ '.' :: (n2 ++ tail)) =
      some (digitsToNat n1, digitsToNat n2, 0, tail) := by
  have htl : ∀ c rs, tail = c :: rs → c.isDigit = false := by
    intro c rs h
    rcases ht with h1 | ⟨c2, rs2, h1, h2, h3⟩
    · rw [h1] at h; simp at h
    · rw [h1] at h
      injection h with h4 _
      rw [← h4]
      exact h2
  have hdot2 : ∀ (x : List Char) (c : Char) (rs : List Char),
      ('.' : Char) :: x = c :: rs → c.isDigit = false := by
    intro x c rs h
    injection h with h1 _
    rw [← h1]
    decide
  have t2 := takeDigits_append n2 tail hd2 htl
  have t1 := takeDigits_append n1 ('.' :: (n2 ++ tail)) hd1 (hdot2 _)
  have hie1 := list_isEmpty_false_of_ne n1 hne1
  have hie2 := list_isEmpty_false_of_ne n2 hne2
  have hnb1 : ¬(2 ^ 64 ≤ digitsToNat n1) := by omega
  have hnb2 : ¬(2 ^ 64 ≤ digitsToNat n2) := by omega
  unfold parseVersionCore
  rcases ht with rfl | ⟨c0, rs0, rfl, hcd, hdot⟩
  · have t1n : takeDigits (n1 ++ '.' :: n2) = (n1, '.' :: n2) := by simpa using t1
    have t2n : takeDigits n2 = (n2, ([] : List Char)) := by simpa using t2
    simp [t1n, t2n, hne1, hne2, hnb1, hnb2]
    omega
  · simp only [t1, t2, hie1, hie2, Bool.false_eq_true, if_false, hnb1, hnb2]
    split
    next r2 heq =>
      exfalso
      injection heq with h4 _
      exact hdot h4
    next heq => rfl

theorem parseVersionCore_three (n1 n2 n3 tail : List Char)
    (hne1 : n1 ≠ []) (hd1 : ∀ c ∈ n1, c.isDigit = true) (hb1 : digitsToNat n1 < 2 ^ 64)
    (hne2 : n2 ≠ []) (hd2 : ∀ c ∈ n2, c.isDigit = true) (hb2 : digitsToNat n2 < 2 ^ 64)
    (hne3 : n3 ≠ []) (hd3 : ∀ c ∈ n3, c.isDigit = true) (hb3 : digitsToNat n3 < 2 ^ 64)
    (ht : tail = [] ∨ ∃ c rs, tail = c :: rs ∧ c.isDigit = false) :
    parseVersionCore (n1 ++ '.' :: (n2 ++ '.' :: (n3 ++ tail))) =
      some (digitsToNat n1, digitsToNat n2, digitsToNat n3, tail) := by
  have htl : ∀ c rs, tail = c :: rs → c.isDigit = false := by
    intro c rs h
    rcases ht with h1 | ⟨c2, rs2, h1, h2⟩
    · rw [h1] at h; simp at h
    · rw [h1] at h
      injection h with h4 _
      rw [← h4]
      exact h2
  have hdot2 : ∀ (x : List Char) (c : Char) (rs : List Char),
      ('.' : Char) :: x = c :: rs → c.isDigit = false := by
    intro x c rs h
    injection h with h1 _
    rw [← h1]
    decide
  have t3 := takeDigits_append n3 tail hd3 htl
  have t2 := takeDigits_append n2 ('.' :: (n3 ++ tail)) hd2 (hdot2 _)
  have t1 := takeDigits_append n1 ('.' :: (n2 ++ '.' :: (n3 ++ tail))) hd1 (hdot2 _)
  have hie1 := list_isEmpty_false_of_ne n1 hne1
  have hie2 := list_isEmpty_false_of_ne n2 hne2
  have hie3 := list_isEmpty_false_of_ne n3 hne3
  have hnb1 : ¬(2 ^ 64 ≤ digitsToNat n1) := by omega
  have hnb2 : ¬(2 ^ 64 ≤ digitsToNat n2) := by omega
  have hnb3 : ¬(2 ^ 64 ≤ digitsToNat n3) := by omega
  unfold parseVersionCore
  simp [t1, t2, t3, hie1, hie2, hie3, hnb1, hnb2, hnb3]
  exact ⟨hb1, hb2, hb3⟩

theorem dotJoin_ne_nil (segs : List (List Char)) (hne : segs ≠ [])
    (hall : ∀ g ∈ segs, g ≠ []) : dotJoin segs ≠ [] := by
  cases segs with
  | nil => exact absurd rfl hne
  | cons g gs =>
    have hg := hall g (by simp)
    cases gs with
    | nil =>
      show g ≠ []
      exact hg
    | cons g2 gs2 =>
      show g ++ '.' :: dotJoin (g2 :: gs2) ≠ []
      cases g with
      | nil => exact absurd rfl hg
      | cons a r => simp

theorem parsePreMeta_complete (tail : List Char) (h : tailGrammar tail) :
    ∃ pm : String × String, parsePreMeta tail = some pm := by
  rcases h with rfl | ⟨p, hp, rfl⟩ | ⟨m, hm, rfl⟩ | ⟨p, m, hp, hm, rfl⟩
  · exact ⟨("", ""), rfl⟩
  · obtain ⟨segs, hne, hall, rfl⟩ := hp
    have hok : segsOkStart (dotJoin segs) = true :=
      segsOk_complete segs hne (fun g hg => (hall g hg))
    have hne2 : (⟨dotJoin segs⟩ : String) ≠ "" := by
      intro hx
      exact dotJoin_ne_nil segs hne (fun g hg => (hall g hg).1)
        (congrArg String.data hx)
    have hr := parsePreMeta_render ⟨dotJoin segs⟩ "" (Or.inr hok) (Or.inl rfl)
    rw [if_neg hne2, if_pos rfl, List.append_nil] at hr
    exact ⟨_, hr⟩
  · obtain ⟨segs, hne, hall, rfl⟩ := hm
    have hok : segsOkStart (dotJoin segs) = true :=
      segsOk_complete segs hne (fun g hg => (hall g hg))
    have hne2 : (⟨dotJoin segs⟩ : String) ≠ "" := by
      intro hx
      exact dotJoin_ne_nil segs hne (fun g hg => (hall g hg).1)
        (congrArg String.data hx)
    have hr := parsePreMeta_render "" ⟨dotJoin segs⟩ (Or.inl rfl) (Or.inr hok)
    rw [if_pos rfl, if_neg hne2, List.nil_append] at hr
    exact ⟨_, hr⟩
  · obtain ⟨sp, hnep, hallp, rfl⟩ := hp
    obtain ⟨sm, hnem, hallm, rfl⟩ := hm
    have hokp : segsOkStart (dotJoin sp) = true :=
      segsOk_complete sp hnep (fun g hg => (hallp g hg))
    have hokm : segsOkStart (dotJoin sm) = true :=
      segsOk_complete sm hnem (fun g hg => (hallm g hg))
    have hnep2 : (⟨dotJoin sp⟩ : String) ≠ "" := by
      intro hx
      exact dotJoin_ne_nil sp hnep (fun g hg => (hallp g hg).1)
        (congrArg String.data hx)
    have hnem2 : (⟨dotJoin sm⟩ : String) ≠ "" := by
      intro hx
      exact dotJoin_ne_nil sm hnem (fun g hg => (hallm g hg).1)
        (congrArg String.data hx)
    have hr := parsePreMeta_render ⟨dotJoin sp⟩ ⟨dotJoin sm⟩ (Or.inr hokp) (Or.inr hokm)
    rw [if_neg hnep2, if_neg hnem2, List.cons_append] at hr
    exact ⟨_, hr⟩

theorem dotJoin_cons_append (n1 : List Char) (gs : List (List Char)) (tail : List Char) :
    ∃ Y, dotJoin (n1 :: gs) ++ tail = n1 ++ Y := by
  cases gs with
  | nil => exact ⟨tail, rfl⟩
  | cons g2 gs2 =>
    exact ⟨'.' :: dotJoin (g2 :: gs2) ++ tail, by
      show (n1 ++ '.' :: dotJoin (g2 :: gs2)) ++ tail = _
      simp⟩

theorem semverIsValid_complete (s : String) (h : semverGrammar s) : semverIsValid s = true := by
  obtain ⟨vp, nums, tail, hvp, hn, ht, hs⟩ := h
  obtain ⟨hl1, hl3, hall⟩ := hn
  have ht2 : tail = [] ∨ ∃ c rs, tail = c :: rs ∧ c.isDigit = false ∧ c ≠ '.' := by
    rcases ht with rfl | ⟨p, hp, rfl⟩ | ⟨m, hm, rfl⟩ | ⟨p, m, hp, hm, rfl⟩
    · exact Or.inl rfl
    · exact Or.inr ⟨'-', p, rfl, by decide, by decide⟩
    · exact Or.inr ⟨'+', m, rfl, by decide, by decide⟩
    · exact Or.inr ⟨'-', p ++ '+' :: m, rfl, by decide, by decide⟩
  have hcore : ∃ a b c, parseVersionCore (dotJoin nums ++ tail) = some (a, b, c, tail) := by
    rcases nums with _ | ⟨n1, _ | ⟨n2, _ | ⟨n3, _ | ⟨n4, r4⟩⟩⟩⟩
    · simp at hl1
    · obtain ⟨hne1, hd1, hb1⟩ := hall n1 (by simp)
      exact ⟨_, _, _, parseVersionCore_one n1 tail hne1 hd1 hb1 ht2⟩
    · obtain ⟨hne1, hd1, hb1⟩ := hall n1 (by simp)
      obtain ⟨hne2, hd2, hb2⟩ := hall n2 (by simp)
      have hdj : dotJoin [n1, n2] ++ tail = n1 ++ '.' :: (n2 ++ tail) := by
        show (n1 ++ '.' :: n2) ++ tail = _
        simp
      have h2 := parseVersionCore_two n1 n2 tail hne1 hd1 hb1 hne2 hd2 hb2 ht2
      rw [← hdj] at h2
      exact ⟨_, _, _, h2⟩
    · obtain ⟨hne1, hd1, hb1⟩ := hall n1 (by simp)
      obtain ⟨hne2, hd2, hb2⟩ := hall n2 (by simp)
      obtain ⟨hne3, hd3, hb3⟩ := hall n3 (by simp)
      have ht3 : tail = [] ∨ ∃ c rs, tail = c :: rs ∧ c.isDigit = false := by
        rcases ht2 with h1 | ⟨c2, rs2, h1, h2, h3⟩
        · exact Or.inl h1
        · exact Or.inr ⟨c2, rs2, h1, h2⟩
      have hdj : dotJoin [n1, n2, n3] ++ tail = n1 ++ '.' :: (n2 ++ '.' :: (n3 ++ tail)) := by
        show (n1 ++ '.' :: (n2 ++ '.' :: n3)) ++ tail = _
        simp
      have h3 := parseVersionCore_three n1 n2 n3 tail hne1 hd1 hb1 hne2 hd2 hb2 hne3 hd3 hb3 ht3
      rw [← hdj] at h3
      exact ⟨_, _, _, h3⟩
    · simp at hl3
  obtain ⟨a, b, c, hpc⟩ := hcore
  obtain ⟨pm, hpm⟩ := parsePreMeta_complete tail ht
  have hstrip : stripV s.data = dotJoin nums ++ tail := by
    rcases hvp with rfl | rfl
    · rw [hs, List.nil_append]
      rcases nums with _ | ⟨n1, gs⟩
      · simp at hl1
      · obtain ⟨hne1, hd1, hb1⟩ := hall n1 (by simp)
        obtain ⟨Y, hY⟩ := dotJoin_cons_append n1 gs tail
        rw [hY]
        exact stripV_digits_head n1 Y hne1 hd1
    · rw [hs]
      rfl
  unfold semverIsValid newVersion
  rw [hstrip, hpc]
  obtain ⟨p0, m0⟩ := pm
  simp [hpm]

theorem semverIsValid_iff (s : String) : semverIsValid s = true ↔ semverGrammar s :=
  ⟨semverIsValid_sound s, semverIsValid_complete s⟩

theorem calver_implies_semver (s : String) (h : calverIsValid s = true) :
    semverIsValid s = true := by
  obtain ⟨y, m, d, suf, hy4, hm2, hd2, hy, hm, hd, hsuf, hs⟩ := (calverIsValid_iff s).1 h
  apply semverIsValid_complete
  have hylt : digitsToNat y < 2 ^ 64 := lt_of_lt_of_le (digitsToNat_lt y hy)
    (by rw [hy4]; norm_num)
  have hmlt : digitsToNat m < 2 ^ 64 := lt_of_lt_of_le (digitsToNat_lt m hm)
    (by rw [hm2]; norm_num)
  have hdlt : digitsToNat d < 2 ^ 64 := lt_of_lt_of_le (digitsToNat_lt d hd)
    (by rw [hd2]; norm_num)
  have hng : numsGrammar [y, m, d] := by
    refine ⟨by simp, by simp, ?_⟩
    intro g hg
    rcases List.mem_cons.1 hg with h1 | h1
    · subst h1
      exact ⟨by intro hx; rw [hx] at hy4; simp at hy4, hy, hylt⟩
    rcases List.mem_cons.1 h1 with h2 | h2
    · subst h2
      exact ⟨by intro hx; rw [hx] at hm2; simp at hm2, hm, hmlt⟩
    · simp at h2
      subst h2
      exact ⟨by intro hx; rw [hx] at hd2; simp at hd2, hd, hdlt⟩
  have hdj : dotJoin [y, m, d] = y ++ '.' :: (m ++ '.' :: d) := rfl
  rcases suf with _ | n
  · simp only at hs
    refine ⟨[], [y, m, d], [], Or.inl rfl, hng, Or.inl rfl, ?_⟩
    rw [hs, hdj]
    simp
  · obtain ⟨hne, hdig⟩ := hsuf n rfl
    simp only at hs
    refine ⟨[], [y, m, d], '-' :: n, Or.inl rfl, hng,
      Or.inr (Or.inl ⟨n, ⟨[n], by simp, ?_, rfl⟩, rfl⟩), ?_⟩
    · intro g hg
      simp at hg
      subst hg
      exact ⟨hne, fun c hc => isSemChar_of_digit c (hdig c hc)⟩
    · rw [hs, hdj]
      simp
/- ### Claim theorems -/

/-- C2 counterexample: Go's `strconv.Atoi` clamps the hotfix suffix at
`MaxInt64`, discarding the range error, and the `int64` increment then wraps:
a same-day `current` with suffix `9223372036854775807` yields the
double-dashed `2025.12.26--9223372036854775808`, not the `D-(N+1)` form
`2025.12.26-9223372036854775808` the claim requires for every matching
suffix. -/
theorem calver_next_wrap_cx :
    calverNext ⟨2025, 12, 26⟩ "2025.12.26-9223372036854775807" bumpHotfix =
      .ok "2025.12.26--9223372036854775808" ∧
    (Except.ok "2025.12.26--9223372036854775808" : Except String String) ≠
      .ok "2025.12.26-9223372036854775808" := by decide

/-- C2 (amended): for CalVer with an injected clock giving today's date `D`,
`Next` with bump Patch or Hotfix returns `D-1` when `current` does not match
the CalVer grammar and when it matches but its date component differs from
`D`; when it matches with date `D`, it returns `D-(N+1)` where `N` is the
suffix value clamped at `MaxInt64` (`0` when the suffix is absent), except
that for `N = MaxInt64` the `int64` increment wraps and the result is the
double-dashed `D--9223372036854775808`. -/
theorem calver_next_hotfix_amended (d : GoDate) (current bump : String)
    (hb : bump = bumpPatch ∨ bump = bumpHotfix) :
    (calverParse current = none → calverNext d current bump = .ok (calverToday d ++ "-1")) ∧
    (∀ p, calverParse current = some p →
      (p.y ++ "." ++ p.m ++ "." ++ p.d = calverToday d →
        (p.suffixNum < 2 ^ 63 - 1 →
          calverNext d current bump =
            .ok (calverToday d ++ "-" ++ intToStr (p.suffixNum + 1))) ∧
        (p.suffixNum = 2 ^ 63 - 1 →
          calverNext d current bump =
            .ok (calverToday d ++ "-" ++ "-9223372036854775808"))) ∧
      (p.y ++ "." ++ p.m ++ "." ++ p.d ≠ calverToday d →
        calverNext d current bump = .ok (calverToday d ++ "-1"))) := by
  have hm : bump ≠ bumpMinor := by
    rcases hb with h | h <;> subst h <;> decide
  unfold calverNext
  rw [if_neg hm, if_pos hb]
  refine ⟨?_, ?_⟩
  · intro hp
    simp only [nextHotfix, hp]
  · intro p hp
    refine ⟨?_, ?_⟩
    · intro he
      refine ⟨?_, ?_⟩
      · intro hlt
        simp only [nextHotfix, hp, he, if_pos]
        have hw : wrap64 (p.suffixNum + 1) = p.suffixNum + 1 := by
          unfold wrap64
          rw [if_neg (by omega)]
        rw [hw]
      · intro heq
        simp only [nextHotfix, hp, he, if_pos]
        rw [heq]
        have hw : intToStr (wrap64 ((2 ^ 63 - 1 : Int) + 1)) = "-9223372036854775808" := by
          decide
        rw [hw]
    · intro he
      simp only [nextHotfix, hp]
      rw [if_neg he]

/-- C2 witness: a same-day hotfix bump on `2025.12.26-1` yields `2025.12.26-2`. -/
theorem calver_next_hotfix_amended_witness :
    calverNext ⟨2025, 12, 26⟩ "2025.12.26-1" bumpHotfix = .ok "2025.12.26-2" := by
  have h := (((calver_next_hotfix_amended ⟨2025, 12, 26⟩ "2025.12.26-1" bumpHotfix
    (Or.inr rfl)).2 ⟨"2025", "12", "26", some "1"⟩ (by decide)).1 (by decide)).1 (by decide)
  rw [h]
  decide

/-- C7 counterexample: for a current version carrying a prerelease, `Next` with
bump Patch does not increment the patch component — `1.2.3-rc.0` yields
`1.2.3`, not `1.2.4`. -/
theorem semver_next_patch_prerelease_cx :
    semverNext "1.2.3-rc.0" bumpPatch = .ok "1.2.3" ∧
    (Except.ok "1.2.3" : Except String String) ≠ .ok "1.2.4" := by decide

/-- C7 (amended): SemVer `Next` increments minor and resets patch for Minor
(`0.1.0` from empty); for Patch or Hotfix it increments patch when the current
version has no prerelease (`0.0.1` from empty) and strips the prerelease and
metadata without incrementing patch when a prerelease is present; the
increments are `uint64` arithmetic and wrap to `0` at `2^64 - 1`, a value the
parser accepts; it errors on any other bump value or an unparseable non-empty
current version. -/
theorem semver_next_amended :
    (semverNext "" bumpMinor = .ok "0.1.0" ∧
      semverNext "" bumpPatch = .ok "0.0.1" ∧ semverNext "" bumpHotfix = .ok "0.0.1" ∧
      semverNext "0.0.18446744073709551615" bumpPatch = .ok "0.0.0" ∧
      semverNext "0.18446744073709551615.7" bumpMinor = .ok "0.0.0") ∧
    (∀ cur v, newVersion cur = some v →
      semverNext cur bumpMinor =
        .ok (SemVersion.render ⟨v.major, (v.minor + 1) % 2 ^ 64, 0, "", ""⟩)) ∧
    (∀ cur v bump, newVersion cur = some v → bump = bumpPatch ∨ bump = bumpHotfix →
      (v.pre = "" → semverNext cur bump =
        .ok (SemVersion.render ⟨v.major, v.minor, (v.patch + 1) % 2 ^ 64, "", ""⟩)) ∧
      (v.pre ≠ "" → semverNext cur bump =
        .ok (SemVersion.render ⟨v.major, v.minor, v.patch, "", ""⟩))) ∧
    (∀ cur, cur ≠ "" → newVersion cur = none →
      ∀ bump, ∃ e, semverNext cur bump = .error e) ∧
    (∀ cur bump, bump ≠ bumpMinor → bump ≠ bumpPatch → bump ≠ bumpHotfix →
      ∃ e, semverNext cur bump = .error e) := by
  have hemp : ∀ v : SemVersion, newVersion "" = some v → False := by
    intro v h
    rw [show newVersion "" = none from by decide] at h
    simp at h
  refine ⟨by refine ⟨by decide, by decide, by decide, by decide, by decide⟩, ?_, ?_, ?_, ?_⟩
  · intro cur v h
    have hc : cur ≠ "" := by
      rintro rfl
      exact hemp v h
    unfold semverNext
    rw [if_neg (by simp [hc]), h]
    dsimp only
    rw [if_pos rfl]
    rfl
  · intro cur v bump h hb
    have hc : cur ≠ "" := by
      rintro rfl
      exact hemp v h
    have hm : bump ≠ bumpMinor := by
      rcases hb with hx | hx <;> subst hx <;> decide
    refine ⟨?_, ?_⟩
    · intro hpre
      unfold semverNext
      rw [if_neg (by simp [hc]), h]
      dsimp only
      rw [if_neg hm, if_pos hb]
      unfold SemVersion.incPatch
      rw [if_pos hpre]
    · intro hpre
      unfold semverNext
      rw [if_neg (by simp [hc]), h]
      dsimp only
      rw [if_neg hm, if_pos hb]
      unfold SemVersion.incPatch
      rw [if_neg hpre]
  · intro cur hne hnone bump
    unfold semverNext
    rw [if_neg (by simp [hne]), hnone]
    exact ⟨_, rfl⟩
  · intro cur bump h1 h2 h3
    by_cases hc : cur = ""
    · subst hc
      unfold semverNext
      rw [if_neg (by simp [h1, h2, h3]), show newVersion "" = none from by decide]
      exact ⟨_, rfl⟩
    · unfold semverNext
      rw [if_neg (by simp [hc])]
      cases hnv : newVersion cur with
      | none => exact ⟨_, rfl⟩
      | some v =>
        dsimp only
        rw [if_neg h1, if_neg (by simp [h2, h3])]
        exact ⟨_, rfl⟩

/-- C7 witness: `1.2.3` bumps to `1.2.4` under Patch. -/
theorem semver_next_amended_witness : semverNext "1.2.3" bumpPatch = .ok "1.2.4" := by
  have h := (semver_next_amended.2.2.1 "1.2.3" ⟨1, 2, 3, "", ""⟩ bumpPatch (by decide)
    (Or.inl rfl)).1 rfl
  rw [h]
  decide
/-- C6: `ReleaseFinish` fails with "no release in progress" when zero release
branches exist and with a "multiple releases in progress" error when more than
one exists, and in both cases issues no mutating repository call. -/
theorem releaseFinish_failure_spec (cfg : FlowCfg) (env : RepoEnv) (startNew : Bool) :
    (env.listBranches "release/" = .ok [] →
      (releaseFinish cfg env startNew).1 = .error "no release in progress" ∧
      (releaseFinish cfg env startNew).2.countP (fun c => isMutationCall c) = 0) ∧
    (∀ b1 b2 bs, env.listBranches "release/" = .ok (b1 :: b2 :: bs) →
      (releaseFinish cfg env startNew).1 =
        .error ("multiple releases in progress: " ++ goFmtStrings (b1 :: b2 :: bs)) ∧
      (releaseFinish cfg env startNew).2.countP (fun c => isMutationCall c) = 0) := by
  refine ⟨?_, ?_⟩
  · intro h
    refine ⟨?_, ?_⟩ <;>
      simp [releaseFinish, h, List.countP_cons, isMutationCall]
  · intro b1 b2 bs h
    refine ⟨?_, ?_⟩ <;>
      simp [releaseFinish, h, List.countP_cons, isMutationCall]

/-- C6 witness: concrete environments with zero and with two release branches. -/
theorem releaseFinish_failure_spec_witness :
    (releaseFinish demoCfgCal envAllOk false).1 = .error "no release in progress" ∧
    (releaseFinish demoCfgCal envTwoReleases false).1 =
      .error "multiple releases in progress: [release/1.0.0 release/2.0.0]" := by
  refine ⟨((releaseFinish_failure_spec demoCfgCal envAllOk false).1 (by decide)).1, ?_⟩
  have h := ((releaseFinish_failure_spec demoCfgCal envTwoReleases false).2
    "release/1.0.0" "release/2.0.0" [] (by decide)).1
  rw [h]
  decide

/-- C10: in dry-run, the silent executor returns empty output with no error and
runs nothing; consequently `BranchExists` is true for every name and
`ListBranches` returns the empty list, regardless of the real repository. -/
theorem dryRun_silent_queries_spec (e : Executor) (w : World) (he : e.dryRun = true)
    (args : List String) (name pfx : String) :
    e.runSilent w args = ⟨.ok "", [], []⟩ ∧
    Repository.branchExists e w name = true ∧
    Repository.listBranches e w pfx = .ok [] := by
  have h1 : ∀ as : List String, e.runSilent w as = ⟨.ok "", [], []⟩ := by
    intro as
    unfold Executor.runSilent
    rw [if_pos he]
  refine ⟨h1 args, ?_, ?_⟩
  · unfold Repository.branchExists
    rw [h1]
  · unfold Repository.listBranches
    rw [h1]
    rfl

/-- C10 witness: a dry-run executor over a world where every git call fails. -/
theorem dryRun_silent_queries_spec_witness :
    Repository.branchExists demoDry demoWorldFail "feature" = true ∧
    Repository.listBranches demoDry demoWorldFail "release/" = .ok [] :=
  ⟨(dryRun_silent_queries_spec demoDry demoWorldFail rfl [] "feature" "release/").2.1,
    (dryRun_silent_queries_spec demoDry demoWorldFail rfl [] "feature" "release/").2.2⟩

/-- C4 counterexample: with dry-run enabled, `BranchExists` reports `true` even
though the real repository (where every git call fails) would report `false`,
and no git command is invoked — read-only queries do not execute against the
real repository. -/
theorem dryRun_query_cx :
    Repository.branchExists demoDry demoWorldFail "main" = true ∧
    Repository.branchExists demoWet demoWorldFail "main" = false ∧
    (demoDry.runSilent demoWorldFail
      ["show-ref", "--verify", "--quiet", "refs/heads/main"]).invoked = [] := by decide

/-- C4 (amended): with dry-run enabled, every executor-routed git call —
mutating or read-only — performs no action: calls through `Run` and
`RunWithInput` are only logged and return empty output with no error, and
silent queries return empty output with no error without logging, so read-only
queries do not reflect the real repository. -/
theorem dryRun_suppresses_all_amended (e : Executor) (w : World) (he : e.dryRun = true)
    (args : List String) (input : String) :
    (e.run w args).invoked = [] ∧ (e.run w args).res = .ok "" ∧
    (e.run w args).printed = ["$ git " ++ joinSpace args] ∧
    (e.runSilent w args).invoked = [] ∧ (e.runSilent w args).res = .ok "" ∧
    (e.runSilent w args).printed = [] ∧
    (e.runWithInput w input args).invoked = [] ∧
    (e.runWithInput w input args).res = .ok "" := by
  obtain ⟨wd, dr, vb⟩ := e
  simp only [Executor.dryRun] at he
  subst he
  simp [Executor.run, Executor.runSilent, Executor.runWithInput]

/-- C4 witness: a concrete dry-run push is suppressed and a concrete silent
status query returns empty output. -/
theorem dryRun_suppresses_all_amended_witness :
    (demoDry.run demoWorldFail ["push", "origin", "main"]).invoked = [] ∧
    (demoDry.runSilent demoWorldFail ["status", "--porcelain"]).res = .ok "" :=
  ⟨(dryRun_suppresses_all_amended demoDry demoWorldFail rfl ["push", "origin", "main"] "").1,
    (dryRun_suppresses_all_amended demoDry demoWorldFail rfl
      ["status", "--porcelain"] "").2.2.2.2.1⟩

/-- C9: with explicitly configured main and develop branches (`production`,
`development`), `HotfixStart` and `HotfixFinish` nevertheless operate on the
auto-detected `main` and `develop` branches — the configured names are never
used by the hotfix flows. -/
theorem hotfixStart_ignores_configured_main :
    demoCfgHot.mainBranch = "production" ∧ demoCfgHot.devBranch = "development" ∧
    (hotfixStart demoCfgHot envAllOk).1 = .ok () ∧
    (hotfixStart demoCfgHot envAllOk).2 =
      [RepoCall.listBranches "hotfix/", RepoCall.getMainBranch, RepoCall.checkout "main",
        RepoCall.hasUncommittedChanges, RepoCall.latestTag,
        RepoCall.createBranch "hotfix/2025.12.26-1" "main"] ∧
    RepoCall.checkout "production" ∉ (hotfixStart demoCfgHot envAllOk).2 ∧
    (hotfixFinish demoCfgHot envOneHotfix).1 = .ok () ∧
    RepoCall.checkout "main" ∈ (hotfixFinish demoCfgHot envOneHotfix).2 ∧
    RepoCall.checkout "develop" ∈ (hotfixFinish demoCfgHot envOneHotfix).2 ∧
    RepoCall.checkout "production" ∉ (hotfixFinish demoCfgHot envOneHotfix).2 ∧
    RepoCall.checkout "development" ∉ (hotfixFinish demoCfgHot envOneHotfix).2 := by decide
/-- C5: `ReleaseStart` fails without creating a branch when a release branch
already exists or when the working tree is dirty; otherwise (all collaborator
calls succeeding) it succeeds and creates exactly one branch
`release/<next version>` from the development branch, where the version
carries prerelease label `rc.0` for SemVer and is today's bare date for
CalVer. -/
theorem releaseStart_spec (cfg : FlowCfg) (env : RepoEnv) :
    (∀ r rs, env.listBranches "release/" = .ok (r :: rs) →
      (releaseStart cfg env).1 = .error ("release already in progress: " ++ r) ∧
      (releaseStart cfg env).2.countP (fun c => isCreateBranchCall c) = 0) ∧
    (env.listBranches "release/" = .ok [] → env.checkout cfg.devBranch = .ok () →
      env.hasUncommittedChanges = .ok true →
      (releaseStart cfg env).1 = .error "uncommitted changes in working directory" ∧
      (releaseStart cfg env).2.countP (fun c => isCreateBranchCall c) = 0) ∧
    (∀ tag nv, env.listBranches "release/" = .ok [] → env.checkout cfg.devBranch = .ok () →
      env.hasUncommittedChanges = .ok false → env.latestTag = .ok tag →
      vNext cfg (dropLeading "v" tag) bumpMinor = .ok nv →
      (∀ nm base, env.createBranch nm base = .ok ()) →
      (releaseStart cfg env).1 = .ok () ∧
      (releaseStart cfg env).2.filter (fun c => isCreateBranchCall c) =
        [RepoCall.createBranch
          ("release/" ++
            (if cfg.scheme = Scheme.semver then vSetPrerelease cfg nv "rc.0" else nv))
          cfg.devBranch] ∧
      (cfg.scheme = Scheme.calver →
        nv = calverToday cfg.today ∧ '-' ∉ (calverToday cfg.today).data) ∧
      (cfg.scheme = Scheme.semver →
        endsWithS "-rc.0" (vSetPrerelease cfg nv "rc.0") = true)) := by
  refine ⟨?_, ?_, ?_⟩
  · intro r rs h
    refine ⟨?_, ?_⟩ <;>
      simp [releaseStart, h, List.countP_cons, isCreateBranchCall]
  · intro hlb hco hhc
    refine ⟨?_, ?_⟩ <;>
      simp [releaseStart, hlb, hco, hhc, List.countP_cons, isCreateBranchCall]
  · intro tag nv hlb hco hhc hlt hnext hcb
    refine ⟨?_, ?_, ?_, ?_⟩
    · simp [releaseStart, vCurrent, hlb, hco, hhc, hlt, hnext, hcb]
    · simp [releaseStart, vCurrent, hlb, hco, hhc, hlt, hnext, hcb,
        List.filter, isCreateBranchCall]
    · intro hcal
      have hnv : nv = calverToday cfg.today := by
        unfold vNext at hnext
        rw [hcal] at hnext
        dsimp only at hnext
        unfold calverNext at hnext
        rw [if_pos rfl] at hnext
        simp only [Except.ok.injEq] at hnext
        exact hnext.symm
      refine ⟨hnv, ?_⟩
      intro hmem
      rcases calverToday_chars cfg.today '-' hmem with h1 | h1 <;> simp at h1
    · intro hsem
      have hnext2 : semverNext (dropLeading "v" tag) bumpMinor = .ok nv := by
        unfold vNext at hnext
        rw [hsem] at hnext
        exact hnext
      have hch := semverNext_minor_chars _ nv hnext2
      unfold vSetPrerelease
      rw [hsem]
      exact setPre_rc0_endsWith nv hch

/-- C5 witness: a cooperative CalVer repository creates exactly
`release/2025.12.26` from `develop`. -/
theorem releaseStart_spec_witness :
    (releaseStart demoCfgCal envAllOk).1 = .ok () ∧
    (releaseStart demoCfgCal envAllOk).2.filter (fun c => isCreateBranchCall c) =
      [RepoCall.createBranch "release/2025.12.26" "develop"] := by
  have h := (releaseStart_spec demoCfgCal envAllOk).2.2 "" "2025.12.26" (by decide)
    (by decide) (by decide) (by decide) (by decide) (fun _ _ => rfl)
  refine ⟨h.1, ?_⟩
  rw [h.2.1]
  decide
theorem releaseStart_neutral (cfg : FlowCfg) (env : RepoEnv) :
    ∀ c ∈ (releaseStart cfg env).2, isOrderNeutral c = true := by
  intro c hc
  unfold releaseStart at hc
  rcases h1 : env.listBranches "release/" with e | ls
  · simp only [h1] at hc
    fin_cases hc <;> rfl
  rcases ls with _ | ⟨r, rs⟩
  · simp only [h1] at hc
    rcases h2 : env.checkout cfg.devBranch with e | u
    · simp only [h2] at hc
      fin_cases hc <;> rfl
    simp only [h2] at hc
    rcases h3 : env.hasUncommittedChanges with e | b
    · simp only [h3] at hc
      fin_cases hc <;> rfl
    cases b
    · simp only [h3] at hc
      rcases h4 : vCurrent env with e | cur
      · simp only [h4] at hc
        fin_cases hc <;> rfl
      simp only [h4] at hc
      rcases h5 : vNext cfg cur bumpMinor with e | nv
      · simp only [h5] at hc
        fin_cases hc <;> rfl
      simp only [h5] at hc
      rcases h6 : env.createBranch
          ("release/" ++ (if cfg.scheme = Scheme.semver then vSetPrerelease cfg nv "rc.0" else nv))
          cfg.devBranch with e | u2
      · simp only [h6] at hc
        fin_cases hc <;> rfl
      · simp only [h6] at hc
        fin_cases hc <;> rfl
    · simp only [h3] at hc
      fin_cases hc <;> rfl
  · simp only [h1] at hc
    fin_cases hc <;> rfl

theorem orderedFrom_of_neutral (m tg p d : Nat) (l : List RepoCall)
    (h : ∀ c ∈ l, isOrderNeutral c = true) : orderedFrom m tg p d l := by
  induction l generalizing m tg p d with
  | nil => trivial
  | cons c rest ih =>
    have hc := h c (by simp)
    have hr : ∀ x ∈ rest, isOrderNeutral x = true := fun x hx => h x (by simp [hx])
    cases c with
    | merge a b => simp [isOrderNeutral] at hc
    | createTag a b => simp [isOrderNeutral] at hc
    | pushWithTags a b => simp [isOrderNeutral] at hc
    | deleteBranch a => simp [isOrderNeutral] at hc
    | listBranches a =>
      simp only [orderedFrom]
      exact ih _ _ _ _ hr
    | checkout a =>
      simp only [orderedFrom]
      exact ih _ _ _ _ hr
    | createBranch a b =>
      simp only [orderedFrom]
      exact ih _ _ _ _ hr
    | hasUncommittedChanges =>
      simp only [orderedFrom]
      exact ih _ _ _ _ hr
    | formatTag a =>
      simp only [orderedFrom]
      exact ih _ _ _ _ hr
    | getMainBranch =>
      simp only [orderedFrom]
      exact ih _ _ _ _ hr
    | getDevelopBranch =>
      simp only [orderedFrom]
      exact ih _ _ _ _ hr
    | latestTag =>
      simp only [orderedFrom]
      exact ih _ _ _ _ hr

theorem releaseFinish_ordering_aux (cfg : FlowCfg) (env : RepoEnv) (startNew : Bool) :
    orderingOK (releaseFinish cfg env startNew).2 := by
  unfold orderingOK releaseFinish
  rcases h1 : env.listBranches "release/" with e | ls
  · simp [h1, orderedFrom]
  rcases ls with _ | ⟨b, bs⟩
  · simp [h1, orderedFrom]
  rcases bs with _ | ⟨b2, bs2⟩
  swap
  · simp [h1, orderedFrom]
  rcases h2 : env.checkout b with e | u1
  · simp [h1, h2, orderedFrom]
  rcases h3 : env.hasUncommittedChanges with e | bb
  · simp [h1, h2, h3, orderedFrom]
  cases bb
  swap
  · simp [h1, h2, h3, orderedFrom]
  rcases h4 : env.checkout cfg.mainBranch with e | u2
  · simp [h1, h2, h3, h4, orderedFrom]
  rcases h5 : env.merge b true with e | u3
  · simp [h1, h2, h3, h4, h5, orderedFrom]
  rcases h6 : env.formatTag (vRemovePrerelease cfg (dropLeading "release/" b)) with e | tn
  · simp [h1, h2, h3, h4, h5, h6, orderedFrom]
  rcases h7 : env.createTag tn
      ("Release " ++ vRemovePrerelease cfg (dropLeading "release/" b)) with e | u4
  · simp [h1, h2, h3, h4, h5, h6, h7, orderedFrom]
  rcases h8 : env.checkout cfg.devBranch with e | u5
  · simp [h1, h2, h3, h4, h5, h6, h7, h8, orderedFrom]
  rcases h9 : env.merge cfg.mainBranch true with e | u6
  · simp [h1, h2, h3, h4, h5, h6, h7, h8, h9, orderedFrom]
  rcases h10 : env.pushWithTags cfg.remote [cfg.mainBranch, cfg.devBranch] with e | u7
  · simp [h1, h2, h3, h4, h5, h6, h7, h8, h9, h10, orderedFrom]
  cases startNew
  · simp [h1, h2, h3, h4, h5, h6, h7, h8, h9, h10, orderedFrom]
  · have hnl := orderedFrom_of_neutral 2 1 1 1 (releaseStart cfg env).2
      (releaseStart_neutral cfg env)
    simp [h1, h2, h3, h4, h5, h6, h7, h8, h9, h10, orderedFrom]
    simpa using hnl

theorem hotfixFinish_ordering_aux (cfg : FlowCfg) (env : RepoEnv) :
    orderingOK (hotfixFinish cfg env).2 := by
  unfold orderingOK hotfixFinish
  rcases h1 : env.listBranches "hotfix/" with e | ls
  · simp [h1, orderedFrom]
  rcases ls with _ | ⟨b, bs⟩
  · simp [h1, orderedFrom]
  rcases bs with _ | ⟨b2, bs2⟩
  swap
  · simp [h1, orderedFrom]
  rcases hm : env.getMainBranch with e | mb
  · simp [h1, hm, orderedFrom]
  rcases hd : env.getDevelopBranch with e | db
  · simp [h1, hm, hd, orderedFrom]
  rcases h2 : env.checkout b with e | u1
  · simp [h1, hm, hd, h2, orderedFrom]
  rcases h3 : env.hasUncommittedChanges with e | bb
  · simp [h1, hm, hd, h2, h3, orderedFrom]
  cases bb
  swap
  · simp [h1, hm, hd, h2, h3, orderedFrom]
  rcases h4 : env.checkout mb with e | u2
  · simp [h1, hm, hd, h2, h3, h4, orderedFrom]
  rcases h5 : env.merge b true with e | u3
  · simp [h1, hm, hd, h2, h3, h4, h5, orderedFrom]
  rcases h6 : env.formatTag (dropLeading "hotfix/" b) with e | tn
  · simp [h1, hm, hd, h2, h3, h4, h5, h6, orderedFrom]
  rcases h7 : env.createTag tn ("Hotfix " ++ dropLeading "hotfix/" b) with e | u4
  · simp [h1, hm, hd, h2, h3, h4, h5, h6, h7, orderedFrom]
  rcases h8 : env.checkout db with e | u5
  · simp [h1, hm, hd, h2, h3, h4, h5, h6, h7, h8, orderedFrom]
  rcases h9 : env.merge mb true with e | u6
  · simp [h1, hm, hd, h2, h3, h4, h5, h6, h7, h8, h9, orderedFrom]
  rcases h10 : env.pushWithTags cfg.remote [mb, db] with e | u7
  · simp [h1, hm, hd, h2, h3, h4, h5, h6, h7, h8, h9, h10, orderedFrom]
  · simp [h1, hm, hd, h2, h3, h4, h5, h6, h7, h8, h9, h10, orderedFrom]

/-- C1: in both `ReleaseFinish` and `HotfixFinish`, every run satisfies the
ordering invariant: the tag is created after the (single) merge into main and
before the merge into develop, the push happens after both merges and the tag,
and the release or hotfix branch deletion happens only after the push, with no
merge, tag creation or push following a deletion. -/
theorem releaseFinish_hotfixFinish_ordering :
    (∀ (cfg : FlowCfg) (env : RepoEnv) (startNew : Bool),
      orderingOK (releaseFinish cfg env startNew).2) ∧
    (∀ (cfg : FlowCfg) (env : RepoEnv), orderingOK (hotfixFinish cfg env).2) :=
  ⟨releaseFinish_ordering_aux, hotfixFinish_ordering_aux⟩
/-- C8 counterexample: for the valid SemVer version `1.2.3+build` and the
label `rc.01` (rejected by the library's leading-zero rule, so the naive
concatenation fallback fires), the set-then-remove round trip returns
`1.2.3+build-rc.01`, not the release form `1.2.3+build`. -/
theorem set_remove_prerelease_cx :
    (newVersion "1.2.3+build").isSome = true ∧
    semverSetPrerelease "1.2.3+build" "rc.01" = "1.2.3+build-rc.01" ∧
    semverRemovePrerelease (semverSetPrerelease "1.2.3+build" "rc.01") =
      "1.2.3+build-rc.01" ∧
    semverRemovePrerelease "1.2.3+build" = "1.2.3+build" ∧
    ("1.2.3+build-rc.01" : String) ≠ "1.2.3+build" := by decide

/-- C8 (amended): for every string that parses as a SemVer version and every
label conforming to the strict semver prerelease grammar (nonempty
dot-separated alphanumeric-or-hyphen identifiers, numeric identifiers without
a redundant leading zero), `RemovePrerelease(SetPrerelease(v, label))` equals
`RemovePrerelease(v)`, the release form of `v`. -/
theorem set_remove_prerelease_amended (s label : String) (v : SemVersion)
    (hv : newVersion s = some v) (hl : preLabelOK label = true) :
    semverRemovePrerelease (semverSetPrerelease s label) = semverRemovePrerelease s := by
  have hl2 := hl
  unfold preLabelOK at hl2
  rw [Bool.and_eq_true] at hl2
  obtain ⟨hseg, hval⟩ := hl2
  obtain ⟨hbma, hbmi, hbpa, hpre, hmeta⟩ := newVersion_wf s v hv
  have hset : semverSetPrerelease s label =
      SemVersion.render ⟨v.major, v.minor, v.patch, label, v.metadata⟩ := by
    unfold semverSetPrerelease
    rw [hv]
    dsimp only
    unfold SemVersion.setPre
    rw [if_neg (by simp [hval])]
  rw [hset]
  unfold semverRemovePrerelease
  rw [hv, newVersion_render v.major v.minor v.patch label v.metadata hbma hbmi hbpa
    (Or.inr hseg) hmeta]

/-- C8 witness: setting and removing `rc.0` on `1.2.3-beta` returns its
release form. -/
theorem set_remove_prerelease_amended_witness :
    semverRemovePrerelease (semverSetPrerelease "1.2.3-beta" "rc.0") =
      semverRemovePrerelease "1.2.3-beta" :=
  set_remove_prerelease_amended "1.2.3-beta" "rc.0" ⟨1, 2, 3, "beta", ""⟩
    (by decide) (by decide)
/-- C3, counterexample: the scheme validators are not disjoint and not strict.
`"2025.12.25"` is valid under both CalVer and SemVer (the Masterminds parser
coerces it), the CalVer validator accepts the non-positive hotfix suffix
`-0`, and the SemVer validator accepts the `v` prefix and the two-component
shorthand `1.2`, which the strict semantic-versioning grammar excludes. -/
theorem isValid_overlap_cx :
    calverIsValid "2025.12.25" = true ∧ semverIsValid "2025.12.25" = true ∧
    calverIsValid "2025.12.25-0" = true ∧
    semverIsValid "v1.2.3" = true ∧ semverIsValid "1.2" = true := by decide

/-- C3, amended: `CalVer.IsValid` accepts exactly `YYYY.MM.DD` with an
optional `-N` suffix for N any digit string (zero included); `SemVer.IsValid`
accepts exactly the lenient Masterminds grammar (optional `v` prefix, one to
three numeric components below `2^64`, optional prerelease and build
metadata); both reject the empty string; and the schemes overlap: every
CalVer-valid string is also SemVer-valid. -/
theorem isValid_grammar_amended :
    (∀ s, calverIsValid s = true ↔ calverGrammar s) ∧
    (∀ s, semverIsValid s = true ↔ semverGrammar s) ∧
    (calverIsValid "" = false ∧ semverIsValid "" = false) ∧
    (∀ s, calverIsValid s = true → semverIsValid s = true) :=
  ⟨calverIsValid_iff, semverIsValid_iff, ⟨by decide, by decide⟩, calver_implies_semver⟩

theorem isValid_grammar_amended_witness :
    calverIsValid "2025.12.26-3" = true ∧ semverIsValid "2025.12.26-3" = true :=
  ⟨by decide, isValid_grammar_amended.2.2.2 "2025.12.26-3" (by decide)⟩
